import Mathlib

/-!
Verification of the resume-parser pipeline (`src/main.py`).

The development shallowly embeds the pure core of `main.py`:

* `extract_text_from_pdf` / `extract_text_from_docx` / `extract_text_from_file`
  (lines 111-159): text extraction and file-type dispatch.  The third-party
  byte decoders (PyPDF2, python-docx) are abstracted by the `FileBytes` type,
  which carries the decoded document (pages / paragraphs) directly; decoding
  failure of malformed bytes corresponds to the `otherFile` constructor.
  The observable side effects of the dispatch (reading the upload, invoking a
  decoder) are recorded as an explicit event trace.
* `create_parsing_prompt` (lines 161-282): the f-string prompt template.
* the response-normalisation tail of `parse_resume_with_ai` (lines 294-310):
  Markdown-fence cleanup followed by `json.loads`, with the error record
  fallback.  `json.loads` / `json.dumps(..., indent=2)` are modelled by an
  executable JSON parser and serializer over an exact JSON value type
  (numbers are kept in exact decimal form; Python's float representation and
  its NaN/Infinity extensions are outside the model).

Python's `str.strip` / `str.lower` are modelled on the ASCII range, which is
the range exercised by the program's fence markers, file extensions and
serializer output.
-/

/-! ## Python string primitives -/

/-- The whitespace characters removed by Python's `str.strip()` (ASCII range). -/
def pyWs (c : Char) : Bool :=
  c = ' ' || c = '\t' || c = '\n' || c = '\r' || c = '\x0b' || c = '\x0c'

/-- `str.strip()` on a character list: drop `pyWs` characters from both ends. -/
def pyStripL (l : List Char) : List Char :=
  ((l.dropWhile pyWs).reverse.dropWhile pyWs).reverse

/-- Python `str.strip()`. -/
def pyStrip (s : String) : String :=
  String.mk (pyStripL s.data)

/-- Python `str.lower()` (ASCII range). -/
def pyLower (s : String) : String :=
  String.mk (s.data.map Char.toLower)

/-- Executable list-prefix test, used to model `str.startswith`/`str.endswith`. -/
def isPre : List Char → List Char → Bool
  | [], _ => true
  | _ :: _, [] => false
  | a :: as, b :: bs => a == b && isPre as bs

/-- Python `str.startswith`. -/
def pyStartsWith (s pat : String) : Bool := isPre pat.data s.data

/-- Python `str.endswith`. -/
def pyEndsWith (s pat : String) : Bool := isPre pat.data.reverse s.data.reverse

/-- Decimal digits of a natural number, most significant first (`str(n)`). -/
def natDigits (n : Nat) : List (Fin 10) :=
  if h : n < 10 then [⟨n, h⟩]
  else natDigits (n / 10) ++ [⟨n % 10, by omega⟩]
decreasing_by omega

/-- The character of a decimal digit. -/
def digitCh : Fin 10 → Char
  | 0 => '0' | 1 => '1' | 2 => '2' | 3 => '3' | 4 => '4'
  | 5 => '5' | 6 => '6' | 7 => '7' | 8 => '8' | 9 => '9'

/-- Python `str(n)` for a natural number. -/
def natRender (n : Nat) : String :=
  String.mk ((natDigits n).map digitCh)

/-! ## Text extraction (`main.py` lines 111-159) -/

/-- An uploaded file's byte content, abstracted by what the third-party
decoders make of it: a PDF with the given per-page extracted text layers
(`page.extract_text()` results, `""` for a page with no text layer), a DOCX
with the given paragraph texts, or bytes neither library can decode. -/
inductive FileBytes where
  | pdfFile (pages : List String)
  | docxFile (paragraphs : List String)
  | otherFile

/-- Observable side effects of `extract_text_from_file`. -/
inductive FileEvent where
  | readBytes
  | decodePdf
  | decodeDocx
  deriving DecidableEq

/-- An uploaded file: a name and byte content. -/
structure UploadedFile where
  name    : String
  content : FileBytes

/-- The page loop of `extract_text_from_pdf` (lines 120-124): starting from
accumulator `acc` and page number `n`, append
`"\n--- Page {n} ---\n" + page_text + "\n"` for each page whose extracted
text is non-empty (`if page_text:`). -/
def pdfLoop (acc : String) (n : Nat) : List String → String
  | [] => acc
  | p :: ps =>
      pdfLoop
        (if p ≠ "" then acc ++ ("\n--- Page " ++ natRender n ++ " ---\n" ++ p ++ "\n") else acc)
        (n + 1) ps

/-- `extract_text_from_pdf` (lines 111-129): on a decodable PDF, run the page
loop from page number 1 and strip the result; on anything else the
`PyPDF2.PdfReader` call raises and the method re-raises an extraction error. -/
def extract_text_from_pdf : FileBytes → Except String String
  | .pdfFile pages => .ok (pyStrip (pdfLoop "" 1 pages))
  | _ => .error "Error extracting PDF text"

/-- The paragraph loop of `extract_text_from_docx` (lines 139-142): append
`paragraph.text + "\n"` for each paragraph that is non-blank after trimming. -/
def docxLoop (acc : String) : List String → String
  | [] => acc
  | p :: ps => docxLoop (if pyStrip p ≠ "" then acc ++ (p ++ "\n") else acc) ps

/-- `extract_text_from_docx` (lines 131-147). -/
def extract_text_from_docx : FileBytes → Except String String
  | .docxFile paragraphs => .ok (pyStrip (docxLoop "" paragraphs))
  | _ => .error "Error extracting DOCX text"

/-- `extract_text_from_file` (lines 149-159), with its side effects recorded
as an event trace.  Line 151 reads the upload's bytes first, then line 152
lowercases the filename, and only then the extension dispatch runs:
`.pdf` goes to the PDF extractor, `.docx` or `.doc` to the DOCX extractor,
anything else raises the unsupported-format error. -/
def extract_text_from_file (f : UploadedFile) : Except String String × List FileEvent :=
  let file_content := f.content
  let filename := pyLower f.name
  if pyEndsWith filename ".pdf" then
    (extract_text_from_pdf file_content, [FileEvent.readBytes, FileEvent.decodePdf])
  else if pyEndsWith filename ".docx" || pyEndsWith filename ".doc" then
    (extract_text_from_docx file_content, [FileEvent.readBytes, FileEvent.decodeDocx])
  else
    (Except.error "Unsupported file format. Please upload PDF or DOCX files.",
      [FileEvent.readBytes])

/-! ## Prompt builder (`main.py` lines 161-282)

`create_parsing_prompt` is an f-string with a single `{resume_text}` splice,
so it is the concatenation of the fixed text before the splice, the resume
text, and the fixed text after the splice.  (`{{`/`}}` in the source render
as literal braces, written `\x7b`/`\x7d` below.) -/

/-- The prompt template text before the `{resume_text}` splice. -/
def promptHeader : String :=
  "\nYou are an expert resume parser and HR analyst. Analyze the following resume text and extract comprehensive information. Be thorough and accurate in your extraction.\n\nResume Text:\n"

/-- The prompt template text after the `{resume_text}` splice. -/
def promptFooter : String :=
  "\n\nExtract and structure the following information as a JSON object:\n\n1. **Personal Information:**\n   - Full name\n   - Email address  \n   - Phone number\n   - Physical address\n   - LinkedIn profile URL\n   - GitHub/Portfolio URLs\n   - Professional websites\n\n2. **Professional Summary:** Brief career overview/objective\n\n3. **Work Experience:** List all jobs with:\n   - Company name\n   - Job title/position\n   - Employment duration (start-end dates)\n   - Location\n   - Key responsibilities and achievements\n   - Technologies/tools used\n\n4. **Education:** All educational qualifications with:\n   - Degree/certification name\n   - Institution name\n   - Graduation year\n   - GPA/grades (if mentioned)\n   - Relevant coursework\n\n5. **Skills:** Categorize into:\n   - Technical skills\n   - Programming languages\n   - Tools and technologies\n   - Soft skills\n   - Languages spoken\n\n6. **Certifications:** All professional certifications with issuing organizations\n\n7. **Projects:** Personal/professional projects with:\n   - Project name\n   - Description\n   - Technologies used\n   - Duration\n   - Key achievements\n\n8. **Additional Information:**\n   - Awards and achievements\n   - Publications\n   - Volunteer work\n   - Hobbies/interests\n\nReturn ONLY a valid JSON object with this exact structure:\n\x7b\n    \"personal_info\": \x7b\n        \"name\": \"Full Name\",\n        \"email\": \"email@example.com\",\n        \"phone\": \"phone number\",\n        \"address\": \"full address\",\n        \"linkedin\": \"linkedin URL\",\n        \"github\": \"github URL\",\n        \"portfolio\": \"portfolio URL\"\n    \x7d,\n    \"summary\": \"Professional summary text\",\n    \"experience\": [\n        \x7b\n            \"company\": \"Company Name\",\n            \"position\": \"Job Title\",\n            \"duration\": \"Start Date - End Date\",\n            \"location\": \"City, State\",\n            \"description\": \"Job description and achievements\",\n            \"technologies\": [\"tech1\", \"tech2\"]\n        \x7d\n    ],\n    \"education\": [\n        \x7b\n            \"degree\": \"Degree Name\",\n            \"institution\": \"Institution Name\",\n            \"year\": \"Graduation Year\",\n            \"gpa\": \"GPA if mentioned\",\n            \"coursework\": [\"course1\", \"course2\"]\n        \x7d\n    ],\n    \"skills\": \x7b\n        \"technical\": [\"skill1\", \"skill2\"],\n        \"programming\": [\"lang1\", \"lang2\"],\n        \"tools\": [\"tool1\", \"tool2\"],\n        \"soft_skills\": [\"skill1\", \"skill2\"],\n        \"languages\": [\"English\", \"Spanish\"]\n    \x7d,\n    \"certifications\": [\n        \x7b\n            \"name\": \"Certification Name\",\n            \"issuer\": \"Issuing Organization\",\n            \"date\": \"Issue Date\"\n        \x7d\n    ],\n    \"projects\": [\n        \x7b\n            \"name\": \"Project Name\",\n            \"description\": \"Project description\",\n            \"technologies\": [\"tech1\", \"tech2\"],\n            \"duration\": \"Project duration\",\n            \"achievements\": \"Key achievements\"\n        \x7d\n    ],\n    \"additional\": \x7b\n        \"awards\": [\"award1\", \"award2\"],\n        \"publications\": [\"pub1\", \"pub2\"],\n        \"volunteer\": [\"volunteer work\"],\n        \"interests\": [\"interest1\", \"interest2\"]\n    \x7d\n\x7d\n\nIf any field is not found, use null or empty array []. Ensure all text is properly extracted and formatted.\n"

/-- `create_parsing_prompt` (lines 161-282). -/
def create_parsing_prompt (resume_text : String) : String :=
  promptHeader ++ resume_text ++ promptFooter

/-! ## Helper lemmas -/

theorem isPre_cons {a : Char} {as l : List Char} (h : isPre (a :: as) l = true) :
    ∃ t, l = a :: t ∧ isPre as t = true := by
  cases l with
  | nil => simp [isPre] at h
  | cons b bs =>
    simp only [isPre, Bool.and_eq_true, beq_iff_eq] at h
    exact ⟨bs, by rw [h.1], h.2⟩

theorem char_toNat_ofNat {n : Nat} (h : n.isValidChar) : (Char.ofNat n).toNat = n := by
  unfold Char.ofNat
  rw [dif_pos h]
  rfl

theorem char_toLower_idem (c : Char) : (Char.toLower c).toLower = c.toLower := by
  unfold Char.toLower
  by_cases h : c.toNat ≥ 65 ∧ c.toNat ≤ 90
  · rw [if_pos h]
    have hv : (c.toNat + 32).isValidChar := by
      left
      omega
    rw [if_neg]
    rw [char_toNat_ofNat hv]
    omega
  · rw [if_neg h, if_neg h]

theorem pyLower_idem (s : String) : pyLower (pyLower s) = pyLower s := by
  unfold pyLower
  have h : Char.toLower ∘ Char.toLower = Char.toLower := funext fun c => char_toLower_idem c
  rw [List.map_map, h]

/-- A name ending in `.doc` (after lowering) does not end in `.pdf`. -/
theorem doc_not_pdf {s : String} (h : pyEndsWith s ".doc" = true) :
    pyEndsWith s ".pdf" = false := by
  unfold pyEndsWith at h ⊢
  obtain ⟨t, ht, _⟩ := isPre_cons (by simpa using h)
  simp only [show (".pdf".data.reverse) = ['f', 'd', 'p', '.'] from rfl, ht, isPre]
  simp

/-- A name ending in `.docx` (after lowering) does not end in `.pdf`. -/
theorem docx_not_pdf {s : String} (h : pyEndsWith s ".docx" = true) :
    pyEndsWith s ".pdf" = false := by
  unfold pyEndsWith at h ⊢
  obtain ⟨t, ht, _⟩ := isPre_cons (by simpa using h)
  simp only [show (".pdf".data.reverse) = ['f', 'd', 'p', '.'] from rfl, ht, isPre]
  simp

/-! ## C5: PDF extraction -/

/-- In-order concatenation of a list of strings. -/
def strConcat : List String → String
  | [] => ""
  | s :: ss => s ++ strConcat ss

/-- The page block emitted for page number `n` with text `p`. -/
def pageBlock (n : Nat) (p : String) : String :=
  "\n--- Page " ++ natRender n ++ " ---\n" ++ p ++ "\n"

theorem pdfLoop_spec (ps : List String) : ∀ (acc : String) (n : Nat),
    pdfLoop acc n ps =
      acc ++ strConcat ((List.enumFrom n ps).filterMap
        (fun pr => if pr.2 = "" then none else some (pageBlock pr.1 pr.2))) := by
  induction ps with
  | nil => intro acc n; simp [pdfLoop, strConcat]
  | cons p ps ih =>
    intro acc n
    by_cases hp : p = ""
    · simp [pdfLoop, hp, ih, List.enumFrom_cons]
    · simp [pdfLoop, hp, ih, List.enumFrom_cons, pageBlock, strConcat, String.append_assoc]

/-- C5 : `extract_text_from_pdf` on a valid PDF succeeds with the in-order
concatenation, over exactly the pages with non-empty text layer, of the page
marker followed by that page's text (pages numbered from 1 in page order;
pages with empty text contribute nothing), the whole trimmed; and a zero-page
or text-less PDF yields the empty string as a success. -/
theorem pdf_extraction_spec (pages : List String) :
    extract_text_from_pdf (.pdfFile pages) =
      .ok (pyStrip (strConcat ((List.enumFrom 1 pages).filterMap
        (fun pr => if pr.2 = "" then none else some (pageBlock pr.1 pr.2))))) ∧
    ((∀ p ∈ pages, p = "") → extract_text_from_pdf (.pdfFile pages) = .ok "") := by
  constructor
  · simp [extract_text_from_pdf, pdfLoop_spec]
  · intro hall
    have : ∀ (n : Nat), pdfLoop "" n pages = "" := by
      intro n
      rw [pdfLoop_spec]
      have : (List.enumFrom n pages).filterMap
          (fun pr => if pr.2 = "" then none else some (pageBlock pr.1 pr.2)) = [] := by
        rw [List.filterMap_eq_nil_iff]
        intro pr hpr
        have : pr.2 ∈ pages := by
          have := List.enumFrom_map_snd n pages
          have hmem : pr.2 ∈ (List.enumFrom n pages).map Prod.snd :=
            List.mem_map_of_mem Prod.snd hpr
          rwa [this] at hmem
        simp [hall _ this]
      simp [this, strConcat]
    simp [extract_text_from_pdf, this 1, pyStrip, pyStripL]

/-- Witness for `pdf_extraction_spec` at a concrete text-less PDF. -/
theorem pdf_extraction_spec_witness :
    extract_text_from_pdf (.pdfFile ["", ""]) = .ok "" :=
  (pdf_extraction_spec ["", ""]).2 (by decide)

/-! ## C6: DOCX extraction -/

theorem docxLoop_spec (ps : List String) : ∀ (acc : String),
    docxLoop acc ps =
      acc ++ strConcat ((ps.filter (fun p => pyStrip p ≠ "")).map (fun p => p ++ "\n")) := by
  induction ps with
  | nil => intro acc; simp [docxLoop, strConcat]
  | cons p ps ih =>
    intro acc
    by_cases hp : pyStrip p = ""
    · simp [docxLoop, hp, ih, List.filter_cons]
    · simp only [docxLoop, if_neg (by simpa using hp), ih, List.filter_cons]
      simp only [hp, decide_not]
      simp [strConcat, String.append_assoc, hp]

/-- C6 : `extract_text_from_docx` on a valid DOCX succeeds with the
concatenation, in document order, of each paragraph that is non-blank after
trimming followed by a newline (blank-after-trimming paragraphs are
excluded), the final text trimmed of leading/trailing whitespace. -/
theorem docx_extraction_spec (paragraphs : List String) :
    extract_text_from_docx (.docxFile paragraphs) =
      .ok (pyStrip (strConcat
        ((paragraphs.filter (fun p => pyStrip p ≠ "")).map (fun p => p ++ "\n")))) := by
  simp [extract_text_from_docx, docxLoop_spec]

/-! ## C7: prompt builder -/

/-- C7 : `create_parsing_prompt` is a pure total function of the input text
(in this embedding it is a Lean function, hence has no side effects and no
failure mode): two runs on equal input yield byte-identical output, and it
succeeds on the empty string, yielding the prompt with an empty body. -/
theorem create_parsing_prompt_deterministic :
    (∀ t₁ t₂ : String, t₁ = t₂ → create_parsing_prompt t₁ = create_parsing_prompt t₂) ∧
    create_parsing_prompt "" = promptHeader ++ promptFooter := by
  constructor
  · intro t₁ t₂ h
    rw [h]
  · simp [create_parsing_prompt]

/-- Witness for `create_parsing_prompt_deterministic` at a concrete input. -/
theorem create_parsing_prompt_deterministic_witness :
    create_parsing_prompt "John Doe" = create_parsing_prompt "John Doe" :=
  create_parsing_prompt_deterministic.1 "John Doe" "John Doe" rfl

/-! ## C3: unsupported format -/

/-- C3, counterexample: for the file named `resume.txt` (whose lowered name
ends in no accepted extension) the dispatch does fail with the
unsupported-format error, but the event trace shows the upload's bytes were
read first (`uploaded_file.read()` on line 151 precedes the extension check),
contradicting "before any file bytes are read". -/
theorem unsupported_reads_bytes_first :
    (pyEndsWith (pyLower "resume.txt") ".pdf" = false ∧
     pyEndsWith (pyLower "resume.txt") ".docx" = false ∧
     pyEndsWith (pyLower "resume.txt") ".doc" = false) ∧
    FileEvent.readBytes ∈ (extract_text_from_file ⟨"resume.txt", .otherFile⟩).2 ∧
    (extract_text_from_file ⟨"resume.txt", .otherFile⟩).1 =
      .error "Unsupported file format. Please upload PDF or DOCX files." := by
  refine ⟨⟨rfl, rfl, rfl⟩, ?_, rfl⟩
  show FileEvent.readBytes ∈ [FileEvent.readBytes]
  simp

/-- C3, amended: for every uploaded file whose lowered name ends in none of
the accepted extensions, extraction fails with the unsupported-format error
and no decoder is invoked — but only after the file bytes have been read
(the trace is exactly `[readBytes]`). -/
theorem unsupported_format_no_decode (f : UploadedFile)
    (h1 : pyEndsWith (pyLower f.name) ".pdf" = false)
    (h2 : pyEndsWith (pyLower f.name) ".docx" = false)
    (h3 : pyEndsWith (pyLower f.name) ".doc" = false) :
    extract_text_from_file f =
      (.error "Unsupported file format. Please upload PDF or DOCX files.",
        [FileEvent.readBytes]) := by
  unfold extract_text_from_file
  rw [if_neg (by simp [h1]), if_neg (by simp [h2, h3])]

/-- Witness for `unsupported_format_no_decode` at `resume.txt`. -/
theorem unsupported_format_no_decode_witness :
    extract_text_from_file ⟨"resume.txt", .otherFile⟩ =
      (.error "Unsupported file format. Please upload PDF or DOCX files.",
        [FileEvent.readBytes]) :=
  unsupported_format_no_decode ⟨"resume.txt", .otherFile⟩ rfl rfl rfl

/-! ## C9: case-insensitive dispatch, `.doc` routed to the DOCX extractor -/

/-- C9 : the file-type dispatch lowercases the filename first (hence is
case-insensitive: a file and its lower-named copy are processed identically),
and a name ending in `.doc` is routed to the DOCX extractor exactly as one
ending in `.docx` is. -/
theorem file_dispatch_doc_docx_case_insensitive :
    (∀ f : UploadedFile, pyEndsWith (pyLower f.name) ".doc" = true →
      extract_text_from_file f =
        (extract_text_from_docx f.content, [FileEvent.readBytes, FileEvent.decodeDocx])) ∧
    (∀ f : UploadedFile, pyEndsWith (pyLower f.name) ".docx" = true →
      extract_text_from_file f =
        (extract_text_from_docx f.content, [FileEvent.readBytes, FileEvent.decodeDocx])) ∧
    (∀ f : UploadedFile,
      extract_text_from_file f = extract_text_from_file ⟨pyLower f.name, f.content⟩) := by
  refine ⟨?_, ?_, ?_⟩
  · intro f h
    unfold extract_text_from_file
    rw [if_neg (by simp [doc_not_pdf h]), if_pos (by simp [h])]
  · intro f h
    unfold extract_text_from_file
    rw [if_neg (by simp [docx_not_pdf h]), if_pos (by simp [h])]
  · intro f
    unfold extract_text_from_file
    rw [pyLower_idem]

/-- Witness for `file_dispatch_doc_docx_case_insensitive`: an upper-cased
`.DOC` file is routed to the DOCX extractor. -/
theorem file_dispatch_doc_docx_case_insensitive_witness :
    extract_text_from_file ⟨"RESUME.DOC", .docxFile ["hi"]⟩ =
      (extract_text_from_docx (.docxFile ["hi"]),
        [FileEvent.readBytes, FileEvent.decodeDocx]) :=
  file_dispatch_doc_docx_case_insensitive.1 ⟨"RESUME.DOC", .docxFile ["hi"]⟩ rfl

/-! ## JSON values

A JSON value as produced by Python's `json.loads`: `None`, booleans, numbers
in exact decimal form (optional sign, integer part, fractional digits,
optional decimal exponent — Python's binary floats and its NaN/Infinity
extensions are outside the model), strings, lists, and dicts as
insertion-ordered key/value lists. -/
inductive Json where
  | null
  | bool (b : Bool)
  | num (neg : Bool) (ip : Nat) (frac : List (Fin 10)) (exp : Option Int)
  | str (s : String)
  | arr (elems : List Json)
  | obj (fields : List (String × Json))

/-! ## The JSON parser (model of `json.loads`) -/

/-- The whitespace skipped between JSON tokens (`json.loads` skips exactly
space, tab, newline, carriage return). -/
def jsonWsB (c : Char) : Bool :=
  c = ' ' || c = '\t' || c = '\n' || c = '\r'

/-- Skip inter-token whitespace. -/
def skipWs (s : List Char) : List Char := s.dropWhile jsonWsB

/-- The decimal digit denoted by a character, if any. -/
def digitOf (c : Char) : Option (Fin 10) :=
  if h : 48 ≤ c.toNat ∧ c.toNat ≤ 57 then some ⟨c.toNat - 48, by omega⟩ else none

/-- Take the longest digit run from the front of the input. -/
def takeDigits : List Char → (List (Fin 10) × List Char)
  | [] => ([], [])
  | c :: cs =>
    match digitOf c with
    | some d => ((d :: (takeDigits cs).1), (takeDigits cs).2)
    | none => ([], c :: cs)

/-- Numeric value of a digit list, most significant first. -/
def natOfDigits (l : List (Fin 10)) : Nat :=
  l.foldl (fun a d => a * 10 + d.val) 0

/-- Value of a hexadecimal digit character (JSON `\uXXXX` escapes accept
both cases). -/
def hexVal (c : Char) : Option Nat :=
  if 48 ≤ c.toNat ∧ c.toNat ≤ 57 then some (c.toNat - 48)
  else if 97 ≤ c.toNat ∧ c.toNat ≤ 102 then some (c.toNat - 87)
  else if 65 ≤ c.toNat ∧ c.toNat ≤ 70 then some (c.toNat - 55)
  else none

/-- Value of a four-hex-digit group. -/
def hexQuad (a b c d : Char) : Option Nat :=
  match hexVal a, hexVal b, hexVal c, hexVal d with
  | some x, some y, some z, some w => some (x * 4096 + y * 256 + z * 16 + w)
  | _, _, _, _ => none

/-- The character denoted by a single-character JSON escape. -/
def escMap (e : Char) : Option Char :=
  if e = '"' then some '"'
  else if e = '\\' then some '\\'
  else if e = '/' then some '/'
  else if e = 'b' then some (Char.ofNat 8)
  else if e = 'f' then some (Char.ofNat 12)
  else if e = 'n' then some '\n'
  else if e = 'r' then some '\r'
  else if e = 't' then some '\t'
  else none

/-- After a high surrogate `n` and a low surrogate `m`, combine the pair
into one code point; `rec` continues the string body. -/
def pairStepVal (rec : List Char → Option (List Char × List Char)) (n : Nat) :
    Option Nat → List Char → Option (List Char × List Char)
  | none, _ => none
  | some m, r4 =>
    if 56320 ≤ m ∧ m < 57344 then
      (rec r4).map (fun p =>
        (Char.ofNat (65536 + (n - 55296) * 1024 + (m - 56320)) :: p.1, p.2))
    else none

/-- After a high surrogate `n`, expect a `\uXXXX` escape holding the low
surrogate. -/
def pairStep (rec : List Char → Option (List Char × List Char)) (n : Nat) :
    List Char → Option (List Char × List Char)
  | b1 :: b2 :: k1 :: k2 :: k3 :: k4 :: r4 =>
    if b1 = '\\' ∧ b2 = 'u' then pairStepVal rec n (hexQuad k1 k2 k3 k4) r4
    else none
  | _ => none

/-- Decode the value of a `\uXXXX` escape: a high surrogate must be followed
by a low surrogate (the model rejects lone surrogates, which Lean's `Char`
cannot represent), anything else is a code point. -/
def uStepVal (rec : List Char → Option (List Char × List Char)) :
    Option Nat → List Char → Option (List Char × List Char)
  | none, _ => none
  | some n, r3 =>
    if 55296 ≤ n ∧ n < 56320 then pairStep rec n r3
    else if 56320 ≤ n ∧ n < 57344 then none
    else (rec r3).map (fun p => (Char.ofNat n :: p.1, p.2))

/-- Decode a `\uXXXX` escape: four hex digits then the code-point logic. -/
def uStep (rec : List Char → Option (List Char × List Char)) :
    List Char → Option (List Char × List Char)
  | h1 :: h2 :: h3 :: h4 :: r3 => uStepVal rec (hexQuad h1 h2 h3 h4) r3
  | _ => none

/-- Continue after a single-character escape decoded to `c2`. -/
def escStepOther (rec : List Char → Option (List Char × List Char)) :
    Option Char → List Char → Option (List Char × List Char)
  | none, _ => none
  | some c2, r2 => (rec r2).map (fun p => (c2 :: p.1, p.2))

/-- Decode the character after a backslash. -/
def escStep (rec : List Char → Option (List Char × List Char)) :
    List Char → Option (List Char × List Char)
  | [] => none
  | e :: r2 =>
    if e = 'u' then uStep rec r2
    else escStepOther rec (escMap e) r2

/-- Parse a JSON string body after the opening quote, returning the decoded
characters and the input after the closing quote.  Unescaped control
characters are rejected (strict mode).  Fuel-indexed: one unit per decoded
character, so `length + 1` fuel always suffices. -/
def parseStrBody : Nat → List Char → Option (List Char × List Char)
  | 0, _ => none
  | f + 1, s =>
    match s with
    | [] => none
    | c :: r =>
      if c = '"' then some ([], r)
      else if c = '\\' then escStep (parseStrBody f) r
      else if c.toNat < 32 then none
      else (parseStrBody f r).map (fun p => (c :: p.1, p.2))

/-- Parse the exponent digits (after `e`/`E` and an optional sign). -/
def parseExpDigits (neg : Bool) (ip : Nat) (frac : List (Fin 10)) (eneg : Bool)
    (s : List Char) : Option (Json × List Char) :=
  if (takeDigits s).1 = [] then none
  else
    some (Json.num neg ip frac
      (some (if eneg then -(natOfDigits (takeDigits s).1 : Int)
             else (natOfDigits (takeDigits s).1 : Int))), (takeDigits s).2)

/-- Parse an optional exponent sign and its digits. -/
def parseExpTail (neg : Bool) (ip : Nat) (frac : List (Fin 10)) :
    List Char → Option (Json × List Char)
  | [] => none
  | c :: r =>
    if c = '+' then parseExpDigits neg ip frac false r
    else if c = '-' then parseExpDigits neg ip frac true r
    else parseExpDigits neg ip frac false (c :: r)

/-- Parse an optional exponent part. -/
def parseExp (neg : Bool) (ip : Nat) (frac : List (Fin 10)) :
    List Char → Option (Json × List Char)
  | [] => some (Json.num neg ip frac none, [])
  | c :: r =>
    if c = 'e' ∨ c = 'E' then parseExpTail neg ip frac r
    else some (Json.num neg ip frac none, c :: r)

/-- Parse an optional fractional part then the exponent part. -/
def parseFracExp (neg : Bool) (ip : Nat) : List Char → Option (Json × List Char)
  | [] => parseExp neg ip [] []
  | c :: r =>
    if c = '.' then
      if (takeDigits r).1 = [] then none
      else parseExp neg ip (takeDigits r).1 (takeDigits r).2
    else parseExp neg ip [] (c :: r)

/-- Continue a number after the optional sign, given the first character's
digit value (JSON forbids leading zeros, so an initial `0` is the whole
integer part). -/
def numAfterSign (neg : Bool) (r : List Char) : Option (Fin 10) → Option (Json × List Char)
  | none => none
  | some d =>
    if d.val = 0 then parseFracExp neg 0 r
    else parseFracExp neg (natOfDigits (d :: (takeDigits r).1)) (takeDigits r).2

/-- Parse the digits of a JSON number after the optional sign. -/
def parseNumBody (neg : Bool) : List Char → Option (Json × List Char)
  | [] => none
  | c :: r => numAfterSign neg r (digitOf c)

/-- Parse a JSON number. -/
def parseNum : List Char → Option (Json × List Char)
  | [] => none
  | c :: r => if c = '-' then parseNumBody true r else parseNumBody false (c :: r)

/-- The rest of the keyword `null`. -/
def keyNull : List Char → Option (Json × List Char)
  | 'u' :: 'l' :: 'l' :: r2 => some (Json.null, r2)
  | _ => none

/-- The rest of the keyword `true`. -/
def keyTrue : List Char → Option (Json × List Char)
  | 'r' :: 'u' :: 'e' :: r2 => some (Json.bool true, r2)
  | _ => none

/-- The rest of the keyword `false`. -/
def keyFalse : List Char → Option (Json × List Char)
  | 'a' :: 'l' :: 's' :: 'e' :: r2 => some (Json.bool false, r2)
  | _ => none

/-- Continue a non-empty array after a parsed element: a `]` closes it, a
`,` demands a further element list via `recItems`. -/
def itemsSep (recItems : List Char → Option (List Json × List Char)) (v : Json) :
    List Char → Option (List Json × List Char)
  | [] => none
  | c :: r2 =>
    if c = ']' then some ([v], r2)
    else if c = ',' then (recItems (skipWs r2)).map (fun p => (v :: p.1, p.2))
    else none

/-- Continue a non-empty array after the element parse result. -/
def itemsStep (recItems : List Char → Option (List Json × List Char)) :
    Option (Json × List Char) → Option (List Json × List Char)
  | none => none
  | some (v, r) => itemsSep recItems v (skipWs r)

/-- Continue a non-empty object after a parsed member: a `}` closes it, a
`,` demands a further member list via `recFields`. -/
def fieldsSep (recFields : List Char → Option (List (String × Json) × List Char))
    (k : List Char) (v : Json) :
    List Char → Option (List (String × Json) × List Char)
  | [] => none
  | c :: r4 =>
    if c = '}' then some ([(String.mk k, v)], r4)
    else if c = ',' then
      (recFields (skipWs r4)).map (fun p => ((String.mk k, v) :: p.1, p.2))
    else none

/-- Continue a member after the value parse result. -/
def fieldsVal (recFields : List Char → Option (List (String × Json) × List Char))
    (k : List Char) :
    Option (Json × List Char) → Option (List (String × Json) × List Char)
  | none => none
  | some (v, r3) => fieldsSep recFields k v (skipWs r3)

/-- After a member key, expect `:` then the member value via `recVal`. -/
def fieldsColon2 (recVal : List Char → Option (Json × List Char))
    (recFields : List Char → Option (List (String × Json) × List Char))
    (k : List Char) :
    List Char → Option (List (String × Json) × List Char)
  | ':' :: r2 => fieldsVal recFields k (recVal (skipWs r2))
  | _ => none

/-- Continue a member after the key parse result. -/
def fieldsColon (recVal : List Char → Option (Json × List Char))
    (recFields : List Char → Option (List (String × Json) × List Char)) :
    Option (List Char × List Char) → Option (List (String × Json) × List Char)
  | none => none
  | some (k, r1) => fieldsColon2 recVal recFields k (skipWs r1)

/-- A member starts with a string key. -/
def fieldsKey (recVal : List Char → Option (Json × List Char))
    (recFields : List Char → Option (List (String × Json) × List Char)) :
    List Char → Option (List (String × Json) × List Char)
  | '"' :: r0 => fieldsColon recVal recFields (parseStrBody (r0.length + 1) r0)
  | _ => none

mutual

/-- Parse a JSON value (fuel-indexed; one unit of fuel is spent per value and
per container element, so `length + 1` fuel always suffices). -/
def parseVal : Nat → List Char → Option (Json × List Char)
  | 0, _ => none
  | f + 1, s =>
    match s with
    | [] => none
    | c :: r =>
      if c = 'n' then keyNull r
      else if c = 't' then keyTrue r
      else if c = 'f' then keyFalse r
      else if c = '"' then
        (parseStrBody (r.length + 1) r).map (fun p => (Json.str (String.mk p.1), p.2))
      else if c = '[' then
        let r1 := skipWs r
        if r1.head? = some ']' then some (Json.arr [], r1.tail)
        else (parseItems f r1).map (fun p => (Json.arr p.1, p.2))
      else if c = '{' then
        let r1 := skipWs r
        if r1.head? = some '}' then some (Json.obj [], r1.tail)
        else (parseFields f r1).map (fun p => (Json.obj p.1, p.2))
      else parseNum (c :: r)

/-- Parse the comma-separated elements of a non-empty JSON array, consuming
the closing bracket. -/
def parseItems : Nat → List Char → Option (List Json × List Char)
  | 0, _ => none
  | f + 1, s => itemsStep (parseItems f) (parseVal f s)

/-- Parse the comma-separated members of a non-empty JSON object, consuming
the closing brace. -/
def parseFields : Nat → List Char → Option (List (String × Json) × List Char)
  | 0, _ => none
  | f + 1, s => fieldsKey (parseVal f) (parseFields f) s

end

/-! ### Unfolding equations for the parser helpers

The helper functions are non-recursive, so each equation below holds by
definitional reduction; they are stated once and used as rewrite rules. -/

theorem keyNull_eq (r2 : List Char) : keyNull ('u' :: 'l' :: 'l' :: r2) = some (Json.null, r2) := rfl

theorem keyTrue_eq (r2 : List Char) : keyTrue ('r' :: 'u' :: 'e' :: r2) = some (Json.bool true, r2) := rfl

theorem keyFalse_eq (r2 : List Char) : keyFalse ('a' :: 'l' :: 's' :: 'e' :: r2) = some (Json.bool false, r2) := rfl

theorem uStep_cons (rec : List Char → Option (List Char × List Char)) (a b c d : Char) (r : List Char) : uStep rec (a :: b :: c :: d :: r) = uStepVal rec (hexQuad a b c d) r := rfl

theorem uStepVal_some (rec : List Char → Option (List Char × List Char)) (n : Nat) (r3 : List Char) : uStepVal rec (some n) r3 = (if 55296 ≤ n ∧ n < 56320 then pairStep rec n r3 else if 56320 ≤ n ∧ n < 57344 then none else (rec r3).map (fun p => (Char.ofNat n :: p.1, p.2))) := rfl

theorem pairStep_cons (rec : List Char → Option (List Char × List Char)) (n : Nat) (b1 b2 k1 k2 k3 k4 : Char) (r4 : List Char) : pairStep rec n (b1 :: b2 :: k1 :: k2 :: k3 :: k4 :: r4) = (if b1 = '\\' ∧ b2 = 'u' then pairStepVal rec n (hexQuad k1 k2 k3 k4) r4 else none) := rfl

theorem pairStepVal_some (rec : List Char → Option (List Char × List Char)) (n m : Nat) (r4 : List Char) : pairStepVal rec n (some m) r4 = (if 56320 ≤ m ∧ m < 57344 then (rec r4).map (fun p => (Char.ofNat (65536 + (n - 55296) * 1024 + (m - 56320)) :: p.1, p.2)) else none) := rfl

theorem escStep_cons (rec : List Char → Option (List Char × List Char)) (e : Char) (r2 : List Char) : escStep rec (e :: r2) = (if e = 'u' then uStep rec r2 else escStepOther rec (escMap e) r2) := rfl

theorem escStepOther_some (rec : List Char → Option (List Char × List Char)) (c2 : Char) (r2 : List Char) : escStepOther rec (some c2) r2 = (rec r2).map (fun p => (c2 :: p.1, p.2)) := rfl

theorem itemsStep_some (R : List Char → Option (List Json × List Char)) (v : Json) (r : List Char) : itemsStep R (some (v, r)) = itemsSep R v (skipWs r) := rfl

theorem itemsSep_cons (R : List Char → Option (List Json × List Char)) (v : Json) (c : Char) (r2 : List Char) : itemsSep R v (c :: r2) = (if c = ']' then some ([v], r2) else if c = ',' then (R (skipWs r2)).map (fun p => (v :: p.1, p.2)) else none) := rfl

theorem fieldsKey_quote (rv : List Char → Option (Json × List Char)) (rf : List Char → Option (List (String × Json) × List Char)) (r0 : List Char) : fieldsKey rv rf ('"' :: r0) = fieldsColon rv rf (parseStrBody (r0.length + 1) r0) := rfl

theorem fieldsColon_some (rv : List Char → Option (Json × List Char)) (rf : List Char → Option (List (String × Json) × List Char)) (k r1 : List Char) : fieldsColon rv rf (some (k, r1)) = fieldsColon2 rv rf k (skipWs r1) := rfl

theorem fieldsColon2_colon (rv : List Char → Option (Json × List Char)) (rf : List Char → Option (List (String × Json) × List Char)) (k r2 : List Char) : fieldsColon2 rv rf k (':' :: r2) = fieldsVal rf k (rv (skipWs r2)) := rfl

theorem fieldsVal_some (rf : List Char → Option (List (String × Json) × List Char)) (k : List Char) (v : Json) (r3 : List Char) : fieldsVal rf k (some (v, r3)) = fieldsSep rf k v (skipWs r3) := rfl

theorem fieldsSep_cons (rf : List Char → Option (List (String × Json) × List Char)) (k : List Char) (v : Json) (c : Char) (r4 : List Char) : fieldsSep rf k v (c :: r4) = (if c = '}' then some ([(String.mk k, v)], r4) else if c = ',' then (rf (skipWs r4)).map (fun p => ((String.mk k, v) :: p.1, p.2)) else none) := rfl

theorem numAfterSign_none (neg : Bool) (r : List Char) : numAfterSign neg r none = none := rfl

theorem numAfterSign_some (neg : Bool) (r : List Char) (d : Fin 10) : numAfterSign neg r (some d) = (if d.val = 0 then parseFracExp neg 0 r else parseFracExp neg (natOfDigits (d :: (takeDigits r).1)) (takeDigits r).2) := rfl

theorem parseNum_cons (c : Char) (r : List Char) : parseNum (c :: r) = (if c = '-' then parseNumBody true r else parseNumBody false (c :: r)) := rfl

theorem parseNumBody_cons (neg : Bool) (c : Char) (r : List Char) : parseNumBody neg (c :: r) = numAfterSign neg r (digitOf c) := rfl

theorem parseExp_nil (neg : Bool) (ip : Nat) (frac : List (Fin 10)) : parseExp neg ip frac [] = some (Json.num neg ip frac none, []) := rfl

theorem parseExp_cons (neg : Bool) (ip : Nat) (frac : List (Fin 10)) (c : Char) (r : List Char) : parseExp neg ip frac (c :: r) = (if c = 'e' ∨ c = 'E' then parseExpTail neg ip frac r else some (Json.num neg ip frac none, c :: r)) := rfl

theorem parseExpTail_cons (neg : Bool) (ip : Nat) (frac : List (Fin 10)) (c : Char) (r : List Char) : parseExpTail neg ip frac (c :: r) = (if c = '+' then parseExpDigits neg ip frac false r else if c = '-' then parseExpDigits neg ip frac true r else parseExpDigits neg ip frac false (c :: r)) := rfl

theorem parseFracExp_nil (neg : Bool) (ip : Nat) : parseFracExp neg ip [] = parseExp neg ip [] [] := rfl

theorem parseFracExp_cons (neg : Bool) (ip : Nat) (c : Char) (r : List Char) : parseFracExp neg ip (c :: r) = (if c = '.' then (if (takeDigits r).1 = [] then none else parseExp neg ip (takeDigits r).1 (takeDigits r).2) else parseExp neg ip [] (c :: r)) := rfl

/-- `json.loads`: parse a complete JSON document, allowing surrounding
whitespace and rejecting trailing data. -/
def json_loads (s : String) : Option Json :=
  match parseVal (s.data.length + 1) (skipWs s.data) with
  | some (v, r) => if skipWs r = [] then some v else none
  | none => none

/-! ## The JSON serializer (model of `json.dumps(..., indent=2)`) -/

/-- Lower-case hexadecimal digit character. -/
def hexCh (x : Fin 16) : Char :=
  List.getD ("0123456789abcdef".data) x.val '0'

/-- Four-hex-digit rendering of `n < 65536`. -/
def hex4 (n : Nat) : List Char :=
  [hexCh ⟨n / 4096 % 16, by omega⟩, hexCh ⟨n / 256 % 16, by omega⟩,
   hexCh ⟨n / 16 % 16, by omega⟩, hexCh ⟨n % 16, by omega⟩]

/-- Python's `json.dumps` string escaping (default `ensure_ascii=True`):
printable ASCII other than quote and backslash is kept, the short escapes
are used where available, and everything else becomes `\uXXXX` (astral code
points as a surrogate pair). -/
def escChar (c : Char) : List Char :=
  if c = '"' then ['\\', '"']
  else if c = '\\' then ['\\', '\\']
  else if c = '\n' then ['\\', 'n']
  else if c = '\r' then ['\\', 'r']
  else if c = '\t' then ['\\', 't']
  else if c.toNat = 8 then ['\\', 'b']
  else if c.toNat = 12 then ['\\', 'f']
  else if c.toNat < 32 then '\\' :: 'u' :: hex4 c.toNat
  else if c.toNat < 127 then [c]
  else if c.toNat < 65536 then '\\' :: 'u' :: hex4 c.toNat
  else ('\\' :: 'u' :: hex4 (55296 + (c.toNat - 65536) / 1024)) ++
       ('\\' :: 'u' :: hex4 (56320 + (c.toNat - 65536) % 1024))

/-- Escape every character of a string body. -/
def escList : List Char → List Char
  | [] => []
  | c :: r => escChar c ++ escList r

/-- Decimal rendering of an integer. -/
def renderInt (e : Int) : List Char :=
  if e < 0 then '-' :: (natDigits e.natAbs).map digitCh
  else (natDigits e.natAbs).map digitCh

/-- Rendering of the fractional part (empty when there are no digits). -/
def fracPart : List (Fin 10) → List Char
  | [] => []
  | fr => '.' :: fr.map digitCh

/-- Rendering of the exponent part (empty when there is none). -/
def expPart : Option Int → List Char
  | none => []
  | some e => 'e' :: renderInt e

/-- Canonical decimal rendering of a model number. -/
def renderNum (neg : Bool) (ip : Nat) (frac : List (Fin 10)) (exp : Option Int) : List Char :=
  (if neg then ['-'] else []) ++ (natDigits ip).map digitCh ++ fracPart frac ++ expPart exp

/-- Indentation: `2 * n` spaces (`indent=2`). -/
def pad (n : Nat) : List Char := List.replicate (2 * n) ' '

mutual

/-- Serialize a value at indentation level `ind`, following
`json.dumps(..., indent=2)`: empty containers render inline as `[]`/`{}`,
non-empty containers put each element on its own indented line, separated
by `,\n`, with the closing bracket on a line at the enclosing level. -/
def serVal (ind : Nat) : Json → List Char
  | .null => ['n', 'u', 'l', 'l']
  | .bool true => "true".data
  | .bool false => ['f', 'a', 'l', 's', 'e']
  | .num neg ip frac exp => renderNum neg ip frac exp
  | .str s => ('"' :: escList s.data) ++ ['"']
  | .arr [] => ['[', ']']
  | .arr (v :: vs) =>
      (['[', '\n'] ++ pad (ind + 1)) ++ serItems (ind + 1) (v :: vs) ++
        (('\n' :: pad ind) ++ [']'])
  | .obj [] => ['{', '}']
  | .obj (kv :: kvs) =>
      (['{', '\n'] ++ pad (ind + 1)) ++ serFields (ind + 1) (kv :: kvs) ++
        (('\n' :: pad ind) ++ ['}'])

/-- Serialize non-empty array elements (separators between, no close). -/
def serItems (ind : Nat) : List Json → List Char
  | [] => []
  | [v] => serVal ind v
  | v :: vs => serVal ind v ++ ((',' :: '\n' :: pad ind) ++ serItems ind vs)

/-- Serialize non-empty object members (`"key": value`). -/
def serFields (ind : Nat) : List (String × Json) → List Char
  | [] => []
  | [(k, v)] => (('"' :: escList k.data) ++ ['"', ':', ' ']) ++ serVal ind v
  | (k, v) :: kvs =>
      (('"' :: escList k.data) ++ ['"', ':', ' ']) ++ serVal ind v ++
        ((',' :: '\n' :: pad ind) ++ serFields ind kvs)

end

/-- `json.dumps(value, indent=2)` as used by the export path
(`create_download_section`, line 581). -/
def json_dumps_indent2 (v : Json) : String :=
  String.mk (serVal 0 v)

/-! ## The response normalizer (`parse_resume_with_ai`, lines 294-310) -/

/-- Lines 294-301: strip the response, drop a leading `"```json"` marker
(7 characters) if present, drop a trailing `"```"` if present, strip again. -/
def cleanResponseL (t : List Char) : List Char :=
  let t1 := pyStripL t
  let t2 := if isPre ("```json".data) t1 then t1.drop 7 else t1
  let t3 := if isPre ("```".data.reverse) t2.reverse then t2.take (t2.length - 3) else t2
  pyStripL t3

/-- The cleaned response text. -/
def cleanResponse (t : String) : String :=
  String.mk (cleanResponseL t.data)

/-- Lines 294-310 of `parse_resume_with_ai` (the spec's `normalize`): clean
the model's response text and parse it as JSON; on success return the parsed
value unchanged, on failure return the error record
`{"error": "JSON parsing failed", "raw_response": <cleaned text>}`. -/
def normalizeResponse (t : String) : Json :=
  match json_loads (cleanResponse t) with
  | some v => v
  | none =>
    Json.obj [("error", Json.str "JSON parsing failed"),
              ("raw_response", Json.str (cleanResponse t))]

/-! ## C1: the shape of normalizer results -/

/-- C1, amended: for every response text, `normalizeResponse` returns either
the parsed JSON value unchanged (with no schema validation — the success
value need not have the ParsedResume shape) or the failure record with
exactly the fields `error` and `raw_response`; but the two shapes are not
mutually exclusive, since a success value may itself be an object of exactly
the failure shape. -/
theorem normalize_result_shapes (t : String) :
    (∃ v, json_loads (cleanResponse t) = some v ∧ normalizeResponse t = v) ∨
    (json_loads (cleanResponse t) = none ∧
      normalizeResponse t =
        Json.obj [("error", Json.str "JSON parsing failed"),
                  ("raw_response", Json.str (cleanResponse t))]) := by
  cases h : json_loads (cleanResponse t) with
  | some v => exact Or.inl ⟨v, rfl, by unfold normalizeResponse; rw [h]⟩
  | none => exact Or.inr ⟨rfl, by unfold normalizeResponse; rw [h]⟩

/-- C1, counterexample to mutual exclusivity: the JSON text
`{"error": "JSON parsing failed", "raw_response": "z"}` parses successfully,
and the success value returned for it is literally the same record that the
failure path returns for the unparsable response `"z"` — so no observer of
the result can separate the two shapes. -/
theorem normalize_shapes_not_exclusive :
    json_loads (cleanResponse
        "\x7b\"error\": \"JSON parsing failed\", \"raw_response\": \"z\"\x7d") =
      some (Json.obj [("error", Json.str "JSON parsing failed"),
                      ("raw_response", Json.str "z")]) ∧
    json_loads (cleanResponse "z") = none ∧
    normalizeResponse "\x7b\"error\": \"JSON parsing failed\", \"raw_response\": \"z\"\x7d" =
      normalizeResponse "z" :=
  ⟨rfl, rfl, rfl⟩

/-! ## C2: failures carry the unparsed text -/

/-- C2 : whenever the fence-stripped remainder of the response is not valid
JSON, the normalizer returns the failure record carrying exactly that
unparsed remainder as `raw_response`. -/
theorem normalize_failure_raw_text (t : String)
    (h : json_loads (cleanResponse t) = none) :
    normalizeResponse t =
      Json.obj [("error", Json.str "JSON parsing failed"),
                ("raw_response", Json.str (cleanResponse t))] := by
  unfold normalizeResponse
  rw [h]

/-- Witness for `normalize_failure_raw_text`: the response `"not json"`
yields a failure whose raw text is exactly `"not json"`. -/
theorem normalize_failure_raw_text_witness :
    json_loads (cleanResponse "not json") = none ∧
    normalizeResponse "not json" =
      Json.obj [("error", Json.str "JSON parsing failed"),
                ("raw_response", Json.str "not json")] :=
  ⟨rfl, by rw [normalize_failure_raw_text "not json" rfl]; rfl⟩

/-! ## C10: a bare leading fence is not stripped -/

/-- The backtick character. -/
def btCh : Char := List.headD ("```".data) ' '

theorem dropWhile_append_last {p : Char → Bool} {c : Char} (l : List Char)
    (hc : p c = false) :
    List.dropWhile p (l ++ [c]) = List.dropWhile p l ++ [c] := by
  induction l with
  | nil => simp [List.dropWhile_cons, hc]
  | cons x xs ih =>
    by_cases hx : p x
    · simp [List.dropWhile_cons, hx, ih]
    · simp [List.dropWhile_cons, hx]

theorem pyStripL_cons_head {c : Char} (u : List Char) (hc : pyWs c = false) :
    pyStripL (c :: u) = c :: (List.dropWhile pyWs u.reverse).reverse := by
  unfold pyStripL
  rw [List.dropWhile_cons]
  simp only [hc, Bool.false_eq_true, if_false, List.reverse_cons,
    dropWhile_append_last _ hc, List.reverse_append]
  rfl

theorem parseVal_backtick (f : Nat) (w : List Char) :
    parseVal (f + 1) (btCh :: w) = none := by
  simp only [parseVal]
  rw [if_neg (show ¬btCh = 'n' by decide), if_neg (show ¬btCh = 't' by decide),
    if_neg (show ¬btCh = 'f' by decide), if_neg (show ¬btCh = '"' by decide),
    if_neg (show ¬btCh = '[' by decide), if_neg (show ¬btCh = '{' by decide)]
  rw [parseNum_cons, if_neg (show ¬btCh = '-' by decide), parseNumBody_cons,
    show digitOf btCh = none from rfl, numAfterSign_none]

theorem json_loads_backtick (w : List Char) :
    json_loads (String.mk (btCh :: w)) = none := by
  unfold json_loads
  have hskip : skipWs (btCh :: w) = btCh :: w := by
    unfold skipWs
    rw [List.dropWhile_cons]
    simp [show jsonWsB btCh = false from rfl]
  show (match parseVal ((btCh :: w).length + 1) (skipWs (btCh :: w)) with
    | some (v, r) => if skipWs r = [] then some v else none
    | none => none) = none
  rw [hskip, show (btCh :: w).length + 1 = w.length + 1 + 1 from by simp,
    parseVal_backtick]

/-- C10 : when the stripped response opens with a bare ``` ``` `` fence (one
not carrying the `json` language tag), the leading fence survives cleaning
(the cleaned text is empty or still starts with a backtick), so parsing
fails and the normalizer returns the failure record — even if a well-formed
JSON body sits inside the fence. -/
theorem bare_fence_not_stripped (t : String)
    (h1 : isPre ("```".data) (pyStripL t.data) = true)
    (h2 : isPre ("```json".data) (pyStripL t.data) = false) :
    ((cleanResponse t).data = [] ∨ (cleanResponse t).data.head? = some btCh) ∧
    normalizeResponse t =
      Json.obj [("error", Json.str "JSON parsing failed"),
                ("raw_response", Json.str (cleanResponse t))] := by
  rw [show ("```".data) = [btCh, btCh, btCh] from rfl] at h1
  obtain ⟨u1, hu1, h1'⟩ := isPre_cons h1
  obtain ⟨u2, hu2, h1''⟩ := isPre_cons h1'
  obtain ⟨u3, hu3, _⟩ := isPre_cons h1''
  have hT1 : pyStripL t.data = btCh :: btCh :: btCh :: u3 := by rw [hu1, hu2, hu3]
  have hshape : (cleanResponse t).data = [] ∨
      ∃ w, (cleanResponse t).data = btCh :: w := by
    show cleanResponseL t.data = [] ∨ ∃ w, cleanResponseL t.data = btCh :: w
    unfold cleanResponseL
    simp only [h2, Bool.false_eq_true, if_false]
    cases hE : isPre ("```".data.reverse) (pyStripL t.data).reverse with
    | true =>
      simp only [hE, if_true, hT1]
      cases u3 with
      | nil => left; rfl
      | cons x u' =>
        right
        have hlen : (btCh :: btCh :: btCh :: x :: u').length - 3 = u'.length + 1 := by
          simp
        rw [hlen, show List.take (u'.length + 1) (btCh :: btCh :: btCh :: x :: u') =
          btCh :: List.take u'.length (btCh :: btCh :: x :: u') from rfl,
          pyStripL_cons_head _ (by decide)]
        exact ⟨_, rfl⟩
    | false =>
      simp only [hE, Bool.false_eq_true, if_false, hT1]
      rw [pyStripL_cons_head _ (by decide)]
      exact Or.inr ⟨_, rfl⟩
  have hload : json_loads (cleanResponse t) = none := by
    rcases hshape with h | ⟨w, h⟩
    · have : cleanResponse t = String.mk [] := by
        cases hc : cleanResponse t
        simp_all
      rw [this]
      rfl
    · have : cleanResponse t = String.mk (btCh :: w) := by
        cases hc : cleanResponse t
        simp_all
      rw [this, json_loads_backtick]
  refine ⟨?_, ?_⟩
  · rcases hshape with h | ⟨w, h⟩
    · exact Or.inl h
    · right; rw [h]; rfl
  · unfold normalizeResponse
    rw [hload]

/-- Witness for `bare_fence_not_stripped` at a concrete fenced JSON body. -/
theorem bare_fence_not_stripped_witness :
    normalizeResponse "```\n\x7b\"a\": 1\x7d\n```" =
      Json.obj [("error", Json.str "JSON parsing failed"),
                ("raw_response", Json.str "```\n\x7b\"a\": 1\x7d")] := by
  rw [(bare_fence_not_stripped "```\n\x7b\"a\": 1\x7d\n```" rfl rfl).2]
  rfl

/-! ## Round-trip: digit and hex lemmas -/

theorem digitOf_digitCh : ∀ d : Fin 10, digitOf (digitCh d) = some d := by decide

theorem natDigits_ne_nil (n : Nat) : natDigits n ≠ [] := by
  rw [natDigits]
  split
  · simp
  · simp

theorem natOfDigits_append (l : List (Fin 10)) (d : Fin 10) :
    natOfDigits (l ++ [d]) = 10 * natOfDigits l + d.val := by
  simp [natOfDigits, List.foldl_append]
  ring

theorem natOfDigits_natDigits (n : Nat) : natOfDigits (natDigits n) = n := by
  induction n using natDigits.induct with
  | case1 n h => simp [natDigits, h, natOfDigits]
  | case2 n h ih =>
    rw [natDigits, dif_neg h, natOfDigits_append, ih]
    show 10 * (n / 10) + n % 10 = n
    omega

theorem natDigits_head_ne_zero (n : Nat) (hn : n ≠ 0) :
    ∀ d ds, natDigits n = d :: ds → d.val ≠ 0 := by
  induction n using natDigits.induct with
  | case1 n h =>
    intro d ds hd
    rw [natDigits, dif_pos h] at hd
    cases hd
    simpa using hn
  | case2 n h ih =>
    intro d ds hd
    rw [natDigits, dif_neg h] at hd
    obtain ⟨d', ds', hds'⟩ : ∃ d' ds', natDigits (n / 10) = d' :: ds' := by
      cases hnd : natDigits (n / 10) with
      | nil => exact absurd hnd (natDigits_ne_nil _)
      | cons a b => exact ⟨a, b, rfl⟩
    rw [hds'] at hd
    simp at hd
    rw [← hd.1]
    exact ih (by omega) d' ds' hds'

/-- The next input character cannot extend a digit run. -/
def nextNonDigit : List Char → Prop
  | [] => True
  | c :: _ => digitOf c = none

theorem takeDigits_map (ds : List (Fin 10)) (rest : List Char) (h : nextNonDigit rest) :
    takeDigits (ds.map digitCh ++ rest) = (ds, rest) := by
  induction ds with
  | nil =>
    cases rest with
    | nil => rfl
    | cons c r =>
      show takeDigits (c :: r) = ([], c :: r)
      unfold takeDigits
      rw [show digitOf c = none from h]
  | cons d ds ih =>
    show takeDigits (digitCh d :: (ds.map digitCh ++ rest)) = (d :: ds, rest)
    unfold takeDigits
    rw [digitOf_digitCh, ih]

theorem hexVal_hexCh : ∀ x : Fin 16, hexVal (hexCh x) = some x.val := by decide

theorem hexQuad_hex4 (n : Nat) (h : n < 65536) :
    hexQuad (hexCh ⟨n / 4096 % 16, by omega⟩) (hexCh ⟨n / 256 % 16, by omega⟩)
      (hexCh ⟨n / 16 % 16, by omega⟩) (hexCh ⟨n % 16, by omega⟩) = some n := by
  unfold hexQuad
  rw [hexVal_hexCh, hexVal_hexCh, hexVal_hexCh, hexVal_hexCh]
  show some _ = some n
  congr 1
  show n / 4096 % 16 * 4096 + n / 256 % 16 * 256 + n / 16 % 16 * 16 + n % 16 = n
  omega

/-! ## Round-trip: whitespace lemmas -/

theorem skipWs_ws_append {a : List Char} (b : List Char)
    (ha : ∀ c ∈ a, jsonWsB c = true) : skipWs (a ++ b) = skipWs b := by
  induction a with
  | nil => rfl
  | cons x xs ih =>
    show skipWs (x :: (xs ++ b)) = skipWs b
    unfold skipWs
    rw [List.dropWhile_cons, if_pos (ha x (by simp))]
    exact ih (fun c hc => ha c (by simp [hc]))

theorem skipWs_not_ws {c : Char} (r : List Char) (hc : jsonWsB c = false) :
    skipWs (c :: r) = c :: r := by
  unfold skipWs
  rw [List.dropWhile_cons]
  simp [hc]

theorem pad_ws (n : Nat) : ∀ c ∈ pad n, jsonWsB c = true := by
  intro c hc
  have : c = ' ' := List.eq_of_mem_replicate hc
  rw [this]
  rfl

theorem ws_char_not_num {c : Char} (h : jsonWsB c = true) :
    digitOf c = none ∧ c ≠ '.' ∧ c ≠ 'e' ∧ c ≠ 'E' := by
  have h' : ((c = ' ' ∨ c = '\t') ∨ c = '\n') ∨ c = '\r' := by
    simpa [jsonWsB] using h
  rcases h' with ((h | h) | h) | h <;>
    (rw [h]; refine ⟨rfl, by decide, by decide, by decide⟩)

/-! ## Round-trip: character classes -/

/-- Characters that can begin a JSON value. -/
def valStart (c : Char) : Bool :=
  c = 'n' || c = 't' || c = 'f' || c = '"' || c = '[' || c = '{' || c = '-' ||
    (digitOf c).isSome

theorem digitOf_isSome_toNat {c : Char} (h : (digitOf c).isSome = true) :
    48 ≤ c.toNat ∧ c.toNat ≤ 57 := by
  by_cases hc : 48 ≤ c.toNat ∧ c.toNat ≤ 57
  · exact hc
  · exfalso
    have hn : digitOf c = none := by unfold digitOf; rw [dif_neg hc]
    rw [hn] at h
    simp at h

theorem valStart_not_ws {c : Char} (h : valStart c = true) :
    jsonWsB c = false ∧ c ≠ ']' ∧ c ≠ '}' := by
  simp only [valStart, Bool.or_eq_true, decide_eq_true_eq] at h
  rcases h with ((((((h | h) | h) | h) | h) | h) | h) | h
  · rw [h]; refine ⟨rfl, by decide, by decide⟩
  · rw [h]; refine ⟨rfl, by decide, by decide⟩
  · rw [h]; refine ⟨rfl, by decide, by decide⟩
  · rw [h]; refine ⟨rfl, by decide, by decide⟩
  · rw [h]; refine ⟨rfl, by decide, by decide⟩
  · rw [h]; refine ⟨rfl, by decide, by decide⟩
  · rw [h]; refine ⟨rfl, by decide, by decide⟩
  · obtain ⟨h1, h2⟩ := digitOf_isSome_toNat h
    refine ⟨?_, ?_, ?_⟩
    · have h32 : c.toNat ≠ 32 := by omega
      have h9 : c.toNat ≠ 9 := by omega
      have h10 : c.toNat ≠ 10 := by omega
      have h13 : c.toNat ≠ 13 := by omega
      simp only [jsonWsB, Bool.or_eq_false_iff, decide_eq_false_iff_not]
      refine ⟨⟨⟨?_, ?_⟩, ?_⟩, ?_⟩ <;> (intro hc; rw [hc] at h32 h9 h10 h13 <;> simp_all)
    · intro hc
      rw [hc] at h1 h2
      have he : (']' : Char).toNat = 93 := rfl
      omega
    · intro hc
      rw [hc] at h1 h2
      have he : ('}' : Char).toNat = 125 := rfl
      omega

/-! ## Round-trip: string escaping -/

theorem char_valid_toNat (c : Char) :
    c.toNat < 55296 ∨ (57343 < c.toNat ∧ c.toNat < 1114112) := c.valid

theorem hex4_expand (n : Nat) :
    hex4 n = hexCh ⟨n / 4096 % 16, by omega⟩ :: hexCh ⟨n / 256 % 16, by omega⟩ ::
      hexCh ⟨n / 16 % 16, by omega⟩ :: hexCh ⟨n % 16, by omega⟩ :: [] := rfl

theorem parseStrBody_quote (f : Nat) (r : List Char) :
    parseStrBody (f + 1) ('"' :: r) = some ([], r) := by
  simp only [parseStrBody]
  first
  | rw [if_pos trivial]
  | rw [if_pos (show ('"' : Char) = '"' from rfl)]

theorem parseStrBody_esc (f : Nat) (r : List Char) :
    parseStrBody (f + 1) ('\\' :: r) = escStep (parseStrBody f) r := by
  simp only [parseStrBody]
  rw [if_neg (show ¬('\\' : Char) = '"' by decide)]
  first
  | rw [if_pos trivial]
  | rw [if_pos (show ('\\' : Char) = '\\' from rfl)]

theorem parseStrBody_plain (f : Nat) {c : Char} (r : List Char) (h1 : ¬c = '"')
    (h2 : ¬c = '\\') (h3 : ¬c.toNat < 32) :
    parseStrBody (f + 1) (c :: r) = (parseStrBody f r).map (fun p => (c :: p.1, p.2)) := by
  simp only [parseStrBody]
  rw [if_neg h1, if_neg h2, if_neg h3]

theorem uStep_hex4 (rec : List Char → Option (List Char × List Char)) (n : Nat)
    (hn : n < 65536) (h2 : ¬(55296 ≤ n ∧ n < 56320)) (h3 : ¬(56320 ≤ n ∧ n < 57344))
    (tail : List Char) :
    uStep rec (hex4 n ++ tail) = (rec tail).map (fun p => (Char.ofNat n :: p.1, p.2)) := by
  rw [hex4_expand]
  simp only [List.cons_append, List.nil_append]
  rw [uStep_cons, hexQuad_hex4 n hn, uStepVal_some, if_neg h2, if_neg h3]

theorem uStep_surrogate (rec : List Char → Option (List Char × List Char)) (t : Nat)
    (h1 : 65536 ≤ t) (h2 : t < 1114112) (tail : List Char) :
    uStep rec (hex4 (55296 + (t - 65536) / 1024) ++
      ('\\' :: 'u' :: hex4 (56320 + (t - 65536) % 1024)) ++ tail) =
      (rec tail).map (fun p => (Char.ofNat t :: p.1, p.2)) := by
  rw [hex4_expand (55296 + (t - 65536) / 1024), hex4_expand (56320 + (t - 65536) % 1024)]
  simp only [List.cons_append, List.nil_append, List.append_assoc]
  rw [uStep_cons, hexQuad_hex4 (55296 + (t - 65536) / 1024) (by omega), uStepVal_some]
  rw [if_pos (show 55296 ≤ 55296 + (t - 65536) / 1024 ∧
    55296 + (t - 65536) / 1024 < 56320 from by omega)]
  rw [pairStep_cons, if_pos (show ('\\' : Char) = '\\' ∧ ('u' : Char) = 'u' from ⟨rfl, rfl⟩)]
  rw [hexQuad_hex4 (56320 + (t - 65536) % 1024) (by omega), pairStepVal_some]
  rw [if_pos (show 56320 ≤ 56320 + (t - 65536) % 1024 ∧
    56320 + (t - 65536) % 1024 < 57344 from by omega)]
  have harith : 65536 + (55296 + (t - 65536) / 1024 - 55296) * 1024 +
      (56320 + (t - 65536) % 1024 - 56320) = t := by omega
  rw [harith]

theorem parseStrBody_escChar (f : Nat) (c : Char) (tail : List Char) :
    parseStrBody (f + 1) (escChar c ++ tail) =
      (parseStrBody f tail).map (fun p => (c :: p.1, p.2)) := by
  by_cases h1 : c = '"'
  · subst h1
    rw [show escChar '"' ++ tail = '\\' :: '"' :: tail from rfl, parseStrBody_esc,
      escStep_cons, if_neg (show ¬('"' : Char) = 'u' by decide),
      show escMap '"' = some '"' from rfl, escStepOther_some]
  by_cases h2 : c = '\\'
  · subst h2
    rw [show escChar '\\' ++ tail = '\\' :: '\\' :: tail from rfl, parseStrBody_esc,
      escStep_cons, if_neg (show ¬('\\' : Char) = 'u' by decide),
      show escMap '\\' = some '\\' from rfl, escStepOther_some]
  by_cases h3 : c = '\n'
  · subst h3
    rw [show escChar '\n' ++ tail = '\\' :: 'n' :: tail from rfl, parseStrBody_esc,
      escStep_cons, if_neg (show ¬('n' : Char) = 'u' by decide),
      show escMap 'n' = some '\n' from rfl, escStepOther_some]
  by_cases h4 : c = '\r'
  · subst h4
    rw [show escChar '\r' ++ tail = '\\' :: 'r' :: tail from rfl, parseStrBody_esc,
      escStep_cons, if_neg (show ¬('r' : Char) = 'u' by decide),
      show escMap 'r' = some '\r' from rfl, escStepOther_some]
  by_cases h5 : c = '\t'
  · subst h5
    rw [show escChar '\t' ++ tail = '\\' :: 't' :: tail from rfl, parseStrBody_esc,
      escStep_cons, if_neg (show ¬('t' : Char) = 'u' by decide),
      show escMap 't' = some '\t' from rfl, escStepOther_some]
  by_cases h6 : c.toNat = 8
  · rw [show c = Char.ofNat 8 from by rw [← h6, Char.ofNat_toNat]]
    rw [show escChar (Char.ofNat 8) ++ tail = '\\' :: 'b' :: tail from rfl, parseStrBody_esc,
      escStep_cons, if_neg (show ¬('b' : Char) = 'u' by decide),
      show escMap 'b' = some (Char.ofNat 8) from rfl, escStepOther_some]
  by_cases h7 : c.toNat = 12
  · rw [show c = Char.ofNat 12 from by rw [← h7, Char.ofNat_toNat]]
    rw [show escChar (Char.ofNat 12) ++ tail = '\\' :: 'f' :: tail from rfl, parseStrBody_esc,
      escStep_cons, if_neg (show ¬('f' : Char) = 'u' by decide),
      show escMap 'f' = some (Char.ofNat 12) from rfl, escStepOther_some]
  by_cases h8 : c.toNat < 32
  · rw [show escChar c = '\\' :: 'u' :: hex4 c.toNat from by
      unfold escChar
      rw [if_neg h1, if_neg h2, if_neg h3, if_neg h4, if_neg h5, if_neg h6, if_neg h7,
        if_pos h8]]
    simp only [List.cons_append]
    rw [parseStrBody_esc, escStep_cons, if_pos rfl,
      uStep_hex4 _ c.toNat (by omega) (by omega) (by omega), Char.ofNat_toNat]
  by_cases h9 : c.toNat < 127
  · rw [show escChar c = [c] from by
      unfold escChar
      rw [if_neg h1, if_neg h2, if_neg h3, if_neg h4, if_neg h5, if_neg h6, if_neg h7,
        if_neg h8, if_pos h9]]
    simp only [List.cons_append, List.nil_append]
    rw [parseStrBody_plain f tail h1 h2 h8]
  by_cases h10 : c.toNat < 65536
  · rw [show escChar c = '\\' :: 'u' :: hex4 c.toNat from by
      unfold escChar
      rw [if_neg h1, if_neg h2, if_neg h3, if_neg h4, if_neg h5, if_neg h6, if_neg h7,
        if_neg h8, if_neg h9, if_pos h10]]
    have hv := char_valid_toNat c
    simp only [List.cons_append]
    rw [parseStrBody_esc, escStep_cons, if_pos rfl,
      uStep_hex4 _ c.toNat (by omega) (by omega) (by omega), Char.ofNat_toNat]
  · rw [show escChar c = ('\\' :: 'u' :: hex4 (55296 + (c.toNat - 65536) / 1024)) ++
        ('\\' :: 'u' :: hex4 (56320 + (c.toNat - 65536) % 1024)) from by
      unfold escChar
      rw [if_neg h1, if_neg h2, if_neg h3, if_neg h4, if_neg h5, if_neg h6, if_neg h7,
        if_neg h8, if_neg h9, if_neg h10]]
    have hv := char_valid_toNat c
    simp only [List.cons_append, List.append_assoc]
    rw [parseStrBody_esc, escStep_cons, if_pos rfl]
    have hs := uStep_surrogate (parseStrBody f) c.toNat (by omega) (by omega) tail
    simp only [List.append_assoc, List.cons_append] at hs
    rw [hs, Char.ofNat_toNat]

theorem parseStrBody_escList (l : List Char) : ∀ (f : Nat) (tail : List Char),
    l.length < f → parseStrBody f (escList l ++ '"' :: tail) = some (l, tail) := by
  induction l with
  | nil =>
    intro f tail hf
    obtain ⟨f', rfl⟩ : ∃ f', f = f' + 1 := ⟨f - 1, by omega⟩
    simp only [escList, List.nil_append]
    rw [parseStrBody_quote]
  | cons c l ih =>
    intro f tail hf
    obtain ⟨f', rfl⟩ : ∃ f', f = f' + 1 := ⟨f - 1, by omega⟩
    simp only [escList, List.append_assoc]
    rw [parseStrBody_escChar, ih f' tail (by simpa using hf)]
    rfl

set_option maxHeartbeats 2000000 in
theorem escChar_length_pos (c : Char) : 1 ≤ (escChar c).length := by
  unfold escChar
  split_ifs <;> simp [hex4_expand]

theorem escList_length_ge (l : List Char) : l.length ≤ (escList l).length := by
  induction l with
  | nil => simp [escList]
  | cons c l ih =>
    simp only [escList, List.length_cons, List.length_append]
    have h1 := escChar_length_pos c
    omega

/-! ## Round-trip: numbers -/

theorem fracPart_cons (d : Fin 10) (ds : List (Fin 10)) :
    fracPart (d :: ds) = '.' :: (d :: ds).map digitCh := rfl

theorem expPart_some (e : Int) : expPart (some e) = 'e' :: renderInt e := rfl

theorem digitCh_ne : ∀ d : Fin 10, digitCh d ≠ '-' ∧ digitCh d ≠ '+' ∧ digitCh d ≠ 'n' ∧
    digitCh d ≠ 't' ∧ digitCh d ≠ 'f' ∧ digitCh d ≠ '"' ∧ digitCh d ≠ '[' ∧
    digitCh d ≠ '{' := by decide

theorem natDigits_zero : natDigits 0 = [(0 : Fin 10)] := by
  rw [natDigits]
  simp

/-- A run of whitespace followed by a structural character cannot extend a
number lexeme. -/
def numStop : List Char → Prop
  | [] => True
  | c :: _ => digitOf c = none ∧ c ≠ '.' ∧ c ≠ 'e' ∧ c ≠ 'E'

theorem numStop_nonDigit {rest : List Char} (h : numStop rest) : nextNonDigit rest := by
  cases rest with
  | nil => trivial
  | cons c r => exact h.1

theorem nextNonDigit_fe (frac : List (Fin 10)) (exp : Option Int) (rest : List Char)
    (h : numStop rest) : nextNonDigit (fracPart frac ++ (expPart exp ++ rest)) := by
  cases frac with
  | cons d ds => exact (show digitOf '.' = none from rfl)
  | nil =>
    cases exp with
    | some e => exact (show digitOf 'e' = none from rfl)
    | none =>
      show nextNonDigit rest
      exact numStop_nonDigit h

theorem parseExpDigits_digits (neg : Bool) (ip : Nat) (frac : List (Fin 10)) (eneg : Bool)
    (ds : List (Fin 10)) (hds : ds ≠ []) (rest : List Char) (h : nextNonDigit rest) :
    parseExpDigits neg ip frac eneg (ds.map digitCh ++ rest) =
      some (Json.num neg ip frac
        (some (if eneg then -(natOfDigits ds : Int) else (natOfDigits ds : Int))), rest) := by
  unfold parseExpDigits
  rw [takeDigits_map ds rest h]
  rw [if_neg (show ¬((ds, rest).1 = []) from hds)]

theorem parseExpTail_renderInt (neg : Bool) (ip : Nat) (frac : List (Fin 10)) (e : Int)
    (rest : List Char) (h : numStop rest) :
    parseExpTail neg ip frac (renderInt e ++ rest) =
      some (Json.num neg ip frac (some e), rest) := by
  by_cases he : e < 0
  · unfold renderInt
    rw [if_pos he]
    rw [List.cons_append, parseExpTail_cons,
      if_neg (show ¬('-' : Char) = '+' by decide), if_pos rfl,
      parseExpDigits_digits neg ip frac true _ (natDigits_ne_nil _) rest (numStop_nonDigit h)]
    rw [natOfDigits_natDigits]
    have : -(e.natAbs : Int) = e := by omega
    rw [if_pos rfl, this]
  · unfold renderInt
    rw [if_neg he]
    obtain ⟨d0, ds, hds⟩ : ∃ d0 ds, natDigits e.natAbs = d0 :: ds := by
      cases hd : natDigits e.natAbs with
      | nil => exact absurd hd (natDigits_ne_nil _)
      | cons a b => exact ⟨a, b, rfl⟩
    rw [hds]
    rw [List.map_cons, List.cons_append, parseExpTail_cons,
      if_neg (digitCh_ne d0).2.1, if_neg (digitCh_ne d0).1]
    rw [show digitCh d0 :: (List.map digitCh ds ++ rest) =
      (d0 :: ds).map digitCh ++ rest from rfl]
    rw [parseExpDigits_digits neg ip frac false _ (by simp) rest (numStop_nonDigit h)]
    rw [← hds, natOfDigits_natDigits]
    have : (e.natAbs : Int) = e := by omega
    rw [if_neg (by simp), this]

theorem parseExp_expPart (neg : Bool) (ip : Nat) (frac : List (Fin 10)) (exp : Option Int)
    (rest : List Char) (h : numStop rest) :
    parseExp neg ip frac (expPart exp ++ rest) = some (Json.num neg ip frac exp, rest) := by
  cases exp with
  | none =>
    show parseExp neg ip frac rest = _
    cases rest with
    | nil => rw [parseExp_nil]
    | cons c r =>
      rw [parseExp_cons, if_neg (by push_neg; exact ⟨h.2.2.1, h.2.2.2⟩)]
  | some e =>
    rw [expPart_some, List.cons_append, parseExp_cons, if_pos (Or.inl rfl),
      parseExpTail_renderInt neg ip frac e rest h]

theorem parseFracExp_out (neg : Bool) (ip : Nat) (frac : List (Fin 10)) (exp : Option Int)
    (rest : List Char) (h : numStop rest) :
    parseFracExp neg ip (fracPart frac ++ (expPart exp ++ rest)) =
      some (Json.num neg ip frac exp, rest) := by
  cases frac with
  | nil =>
    show parseFracExp neg ip (expPart exp ++ rest) = _
    cases exp with
    | some e =>
      rw [expPart_some, List.cons_append, parseFracExp_cons,
        if_neg (show ¬('e' : Char) = '.' by decide)]
      rw [show 'e' :: (renderInt e ++ rest) = expPart (some e) ++ rest from rfl]
      exact parseExp_expPart neg ip [] (some e) rest h
    | none =>
      show parseFracExp neg ip rest = _
      cases rest with
      | nil => rw [parseFracExp_nil, parseExp_nil]
      | cons c r =>
        rw [parseFracExp_cons, if_neg h.2.1]
        have := parseExp_expPart neg ip [] none (c :: r) h
        simpa using this
  | cons d ds =>
    rw [fracPart_cons]
    simp only [List.cons_append, List.append_assoc]
    rw [parseFracExp_cons, if_pos rfl]
    rw [takeDigits_map (d :: ds) _ (by
      cases exp with
      | some e => exact (show digitOf 'e' = none from rfl)
      | none => exact numStop_nonDigit h)]
    rw [if_neg (show ¬(((d :: ds, expPart exp ++ rest)).1 = []) from by simp)]
    exact parseExp_expPart neg ip (d :: ds) exp rest h

theorem parseNumBody_out (neg : Bool) (ip : Nat) (frac : List (Fin 10)) (exp : Option Int)
    (rest : List Char) (h : numStop rest) :
    parseNumBody neg ((natDigits ip).map digitCh ++ (fracPart frac ++ (expPart exp ++ rest))) =
      some (Json.num neg ip frac exp, rest) := by
  by_cases hip : ip = 0
  · subst hip
    rw [natDigits_zero]
    rw [List.map_cons, List.cons_append, parseNumBody_cons, digitOf_digitCh,
      numAfterSign_some, if_pos (show ((0 : Fin 10)).val = 0 from rfl)]
    show parseFracExp neg 0 (fracPart frac ++ (expPart exp ++ rest)) = _
    exact parseFracExp_out neg 0 frac exp rest h
  · obtain ⟨d0, ds, hds⟩ : ∃ d0 ds, natDigits ip = d0 :: ds := by
      cases hd : natDigits ip with
      | nil => exact absurd hd (natDigits_ne_nil _)
      | cons a b => exact ⟨a, b, rfl⟩
    rw [hds, List.map_cons, List.cons_append, parseNumBody_cons, digitOf_digitCh,
      numAfterSign_some, if_neg (natDigits_head_ne_zero ip hip d0 ds hds)]
    rw [takeDigits_map ds _ (nextNonDigit_fe frac exp rest h)]
    show parseFracExp neg (natOfDigits (d0 :: ds)) (fracPart frac ++ (expPart exp ++ rest)) = _
    rw [← hds, natOfDigits_natDigits]
    exact parseFracExp_out neg ip frac exp rest h

theorem parseNum_renderNum (neg : Bool) (ip : Nat) (frac : List (Fin 10)) (exp : Option Int)
    (rest : List Char) (h : numStop rest) :
    parseNum (renderNum neg ip frac exp ++ rest) =
      some (Json.num neg ip frac exp, rest) := by
  unfold renderNum
  cases neg with
  | true =>
    rw [if_pos rfl]
    simp only [List.cons_append, List.nil_append, List.append_assoc]
    rw [parseNum_cons, if_pos rfl]
    exact parseNumBody_out true ip frac exp rest h
  | false =>
    rw [if_neg (by simp)]
    simp only [List.nil_append, List.append_assoc]
    obtain ⟨d0, ds, hds⟩ : ∃ d0 ds, natDigits ip = d0 :: ds := by
      cases hd : natDigits ip with
      | nil => exact absurd hd (natDigits_ne_nil _)
      | cons a b => exact ⟨a, b, rfl⟩
    rw [hds, List.map_cons, List.cons_append, parseNum_cons, if_neg (digitCh_ne d0).1]
    rw [show digitCh d0 :: (List.map digitCh ds ++ (fracPart frac ++ (expPart exp ++ rest))) =
      (d0 :: ds).map digitCh ++ (fracPart frac ++ (expPart exp ++ rest)) from rfl, ← hds]
    exact parseNumBody_out false ip frac exp rest h

/-! ## Round-trip: parser dispatch and serializer head shapes -/

theorem string_mk_data (s : String) : String.mk s.data = s := by
  cases s
  rfl

theorem skipWs_ws_cons {c : Char} (r : List Char) (hc : jsonWsB c = true) :
    skipWs (c :: r) = skipWs r := by
  unfold skipWs
  rw [List.dropWhile_cons, if_pos hc]

theorem numStop_close (cl : List Char) (c0 : Char) (rest : List Char)
    (hcl : ∀ c ∈ cl, jsonWsB c = true)
    (hc : digitOf c0 = none ∧ c0 ≠ '.' ∧ c0 ≠ 'e' ∧ c0 ≠ 'E') :
    numStop (cl ++ c0 :: rest) := by
  cases cl with
  | nil => exact hc
  | cons c cl' => exact ws_char_not_num (hcl c (by simp))

theorem parseVal_n (f : Nat) (r : List Char) : parseVal (f + 1) ('n' :: r) = keyNull r := by
  simp only [parseVal]
  first
  | rw [if_pos trivial]
  | rw [if_pos (show ('n' : Char) = 'n' from rfl)]

theorem parseVal_t (f : Nat) (r : List Char) : parseVal (f + 1) ('t' :: r) = keyTrue r := by
  simp only [parseVal]
  rw [if_neg (show ¬('t' : Char) = 'n' by decide)]
  first
  | rw [if_pos trivial]
  | rw [if_pos (show ('t' : Char) = 't' from rfl)]

theorem parseVal_f (f : Nat) (r : List Char) : parseVal (f + 1) ('f' :: r) = keyFalse r := by
  simp only [parseVal]
  rw [if_neg (show ¬('f' : Char) = 'n' by decide),
    if_neg (show ¬('f' : Char) = 't' by decide)]
  first
  | rw [if_pos trivial]
  | rw [if_pos (show ('f' : Char) = 'f' from rfl)]

theorem parseVal_quote (f : Nat) (r : List Char) :
    parseVal (f + 1) ('"' :: r) =
      (parseStrBody (r.length + 1) r).map (fun p => (Json.str (String.mk p.1), p.2)) := by
  simp only [parseVal]
  rw [if_neg (show ¬('"' : Char) = 'n' by decide),
    if_neg (show ¬('"' : Char) = 't' by decide),
    if_neg (show ¬('"' : Char) = 'f' by decide)]
  first
  | rw [if_pos trivial]
  | rw [if_pos (show ('"' : Char) = '"' from rfl)]

theorem parseVal_lbrack (f : Nat) (r : List Char) :
    parseVal (f + 1) ('[' :: r) =
      (if (skipWs r).head? = some ']' then some (Json.arr [], (skipWs r).tail)
       else (parseItems f (skipWs r)).map (fun p => (Json.arr p.1, p.2))) := by
  simp only [parseVal]
  rw [if_neg (show ¬('[' : Char) = 'n' by decide),
    if_neg (show ¬('[' : Char) = 't' by decide),
    if_neg (show ¬('[' : Char) = 'f' by decide),
    if_neg (show ¬('[' : Char) = '"' by decide)]
  first
  | rw [if_pos trivial]
  | rw [if_pos (show ('[' : Char) = '[' from rfl)]

theorem parseVal_lbrace (f : Nat) (r : List Char) :
    parseVal (f + 1) ('{' :: r) =
      (if (skipWs r).head? = some '}' then some (Json.obj [], (skipWs r).tail)
       else (parseFields f (skipWs r)).map (fun p => (Json.obj p.1, p.2))) := by
  simp only [parseVal]
  rw [if_neg (show ¬('{' : Char) = 'n' by decide),
    if_neg (show ¬('{' : Char) = 't' by decide),
    if_neg (show ¬('{' : Char) = 'f' by decide),
    if_neg (show ¬('{' : Char) = '"' by decide),
    if_neg (show ¬('{' : Char) = '[' by decide)]
  first
  | rw [if_pos trivial]
  | rw [if_pos (show ('{' : Char) = '{' from rfl)]

theorem parseVal_other (f : Nat) {c : Char} (r : List Char) (h1 : ¬c = 'n') (h2 : ¬c = 't')
    (h3 : ¬c = 'f') (h4 : ¬c = '"') (h5 : ¬c = '[') (h6 : ¬c = '{') :
    parseVal (f + 1) (c :: r) = parseNum (c :: r) := by
  simp only [parseVal]
  rw [if_neg h1, if_neg h2, if_neg h3, if_neg h4, if_neg h5, if_neg h6]

theorem renderNum_head (neg : Bool) (ip : Nat) (frac : List (Fin 10)) (exp : Option Int) :
    ∃ c t, renderNum neg ip frac exp = c :: t ∧ (c = '-' ∨ ∃ d, c = digitCh d) := by
  obtain ⟨d0, ds, hds⟩ : ∃ d0 ds, natDigits ip = d0 :: ds := by
    cases hd : natDigits ip with
    | nil => exact absurd hd (natDigits_ne_nil _)
    | cons a b => exact ⟨a, b, rfl⟩
  cases neg with
  | true =>
    refine ⟨'-', (natDigits ip).map digitCh ++ fracPart frac ++ expPart exp, ?_, Or.inl rfl⟩
    unfold renderNum
    rw [if_pos rfl]
    simp [List.append_assoc]
  | false =>
    refine ⟨digitCh d0, ds.map digitCh ++ fracPart frac ++ expPart exp, ?_, Or.inr ⟨d0, rfl⟩⟩
    unfold renderNum
    rw [if_neg (by simp), hds]
    simp [List.append_assoc]

theorem serVal_head (ind : Nat) (v : Json) :
    ∃ c t, serVal ind v = c :: t ∧ valStart c = true := by
  cases v with
  | null => exact ⟨'n', ['u', 'l', 'l'], by simp [serVal], by decide⟩
  | bool b =>
    cases b with
    | true => exact ⟨'t', ['r', 'u', 'e'], by simp [serVal], by decide⟩
    | false => exact ⟨'f', ['a', 'l', 's', 'e'], by simp [serVal], by decide⟩
  | num neg ip frac exp =>
    obtain ⟨c, t, hct, hc⟩ := renderNum_head neg ip frac exp
    refine ⟨c, t, by simp [serVal, hct], ?_⟩
    rcases hc with hc | ⟨d, hc⟩
    · rw [hc]; decide
    · rw [hc]
      simp [valStart, digitOf_digitCh]
  | str s => exact ⟨'"', escList s.data ++ ['"'], by simp [serVal], by decide⟩
  | arr l =>
    cases l with
    | nil => exact ⟨'[', [']'], by simp [serVal], by decide⟩
    | cons v vs =>
      refine ⟨'[', '\n' :: (pad (ind + 1) ++
        (serItems (ind + 1) (v :: vs) ++ ('\n' :: (pad ind ++ [']'])))), ?_, by decide⟩
      simp [serVal]
  | obj l =>
    cases l with
    | nil => exact ⟨'{', ['}'], by simp [serVal], by decide⟩
    | cons kv kvs =>
      refine ⟨'{', '\n' :: (pad (ind + 1) ++
        (serFields (ind + 1) (kv :: kvs) ++ ('\n' :: (pad ind ++ ['}'])))), ?_, by decide⟩
      simp [serVal]

theorem serItems_head (ind : Nat) (l : List Json) (hl : l ≠ []) :
    ∃ c t, serItems ind l = c :: t ∧ valStart c = true := by
  cases l with
  | nil => exact absurd rfl hl
  | cons v vs =>
    obtain ⟨c, t, hct, hc⟩ := serVal_head ind v
    cases vs with
    | nil => exact ⟨c, t, by simp [serItems, hct], hc⟩
    | cons v2 vs2 =>
      refine ⟨c, t ++ ((',' :: '\n' :: pad ind) ++ serItems ind (v2 :: vs2)), ?_, hc⟩
      simp [serItems, hct]

theorem serFields_head (ind : Nat) (l : List (String × Json)) (hl : l ≠ []) :
    ∃ t, serFields ind l = '"' :: t := by
  cases l with
  | nil => exact absurd rfl hl
  | cons kv kvs =>
    obtain ⟨k, v⟩ := kv
    cases kvs with
    | nil =>
      exact ⟨escList k.data ++ '"' :: ':' :: ' ' :: serVal ind v, by simp [serFields]⟩
    | cons kv2 kvs2 =>
      exact ⟨escList k.data ++ '"' :: ':' :: ' ' ::
        (serVal ind v ++ ',' :: '\n' :: (pad ind ++ serFields ind (kv2 :: kvs2))),
        by simp [serFields]⟩

/-! ## Round-trip: fuel accounting -/

mutual

/-- Fuel needed by `parseVal` on the serialization of `v`. -/
def costVal : Json → Nat
  | .null => 1
  | .bool _ => 1
  | .num _ _ _ _ => 1
  | .str _ => 1
  | .arr l => 1 + costItems l
  | .obj l => 1 + costFields l

/-- Fuel needed by `parseItems` on the serialized elements. -/
def costItems : List Json → Nat
  | [] => 0
  | v :: vs => 1 + costVal v + costItems vs

/-- Fuel needed by `parseFields` on the serialized members. -/
def costFields : List (String × Json) → Nat
  | [] => 0
  | kv :: kvs => 1 + costVal kv.2 + costFields kvs

end

theorem costVal_pos (v : Json) : 1 ≤ costVal v := by
  cases v <;> simp [costVal]

theorem costItems_pos (l : List Json) (hl : l ≠ []) : 1 ≤ costItems l := by
  cases l with
  | nil => exact absurd rfl hl
  | cons v vs => simp [costItems]; omega

theorem costFields_pos (l : List (String × Json)) (hl : l ≠ []) : 1 ≤ costFields l := by
  cases l with
  | nil => exact absurd rfl hl
  | cons kv kvs => simp [costFields]; omega

theorem cost_le_all : ∀ n : Nat,
    (∀ (v : Json) (ind : Nat), sizeOf v ≤ n → costVal v ≤ (serVal ind v).length) ∧
    (∀ (l : List Json) (ind : Nat), sizeOf l ≤ n →
      costItems l ≤ (serItems ind l).length + 1) ∧
    (∀ (l : List (String × Json)) (ind : Nat), sizeOf l ≤ n →
      costFields l ≤ (serFields ind l).length + 1) := by
  intro n
  induction n using Nat.strong_induction_on with
  | _ n ih =>
    refine ⟨?_, ?_, ?_⟩
    · intro v ind hv
      cases v with
      | null => simp [costVal, serVal]
      | bool b => cases b <;> simp [costVal, serVal]
      | num neg ip frac exp =>
        obtain ⟨c, t, hct, _⟩ := renderNum_head neg ip frac exp
        simp [costVal, serVal, hct]
      | str s => simp [costVal, serVal]
      | arr l =>
        cases l with
        | nil => simp [costVal, costItems, serVal]
        | cons v vs =>
          have hsz : sizeOf (v :: vs) ≤ n - 1 := by
            have : 1 + sizeOf (v :: vs) ≤ n := by
              have := Json.arr.sizeOf_spec (v :: vs)
              omega
            omega
          have hn1 : n - 1 < n := by
            have : 1 ≤ sizeOf (v :: vs) := by
              have := List.cons.sizeOf_spec v vs
              omega
            omega
          have h := (ih (n - 1) hn1).2.1 (v :: vs) (ind + 1) hsz
          simp only [costVal, serVal, List.length_append, List.length_cons,
            List.length_replicate, pad]
          omega
      | obj l =>
        cases l with
        | nil => simp [costVal, costFields, serVal]
        | cons kv kvs =>
          have hsz : sizeOf (kv :: kvs) ≤ n - 1 := by
            have : 1 + sizeOf (kv :: kvs) ≤ n := by
              have := Json.obj.sizeOf_spec (kv :: kvs)
              omega
            omega
          have hn1 : n - 1 < n := by
            have : 1 ≤ sizeOf (kv :: kvs) := by
              have := List.cons.sizeOf_spec kv kvs
              omega
            omega
          have h := (ih (n - 1) hn1).2.2 (kv :: kvs) (ind + 1) hsz
          simp only [costVal, serVal, List.length_append, List.length_cons,
            List.length_replicate, pad]
          omega
    · intro l ind hl
      cases l with
      | nil => simp [costItems]
      | cons v vs =>
        have hszv : sizeOf v ≤ n - 1 := by
          have := List.cons.sizeOf_spec v vs
          have h1 : 1 ≤ sizeOf vs := by cases vs <;> simp <;> omega
          omega
        have hszvs : sizeOf vs ≤ n - 1 := by
          have := List.cons.sizeOf_spec v vs
          have h1 : 1 ≤ sizeOf v := by cases v <;> simp <;> omega
          omega
        have hn1 : n - 1 < n := by
          have := List.cons.sizeOf_spec v vs
          have h1 : 1 ≤ sizeOf v := by cases v <;> simp <;> omega
          omega
        have hv := (ih (n - 1) hn1).1 v ind hszv
        cases vs with
        | nil =>
          simp only [costItems, serItems]
          omega
        | cons v2 vs2 =>
          have hvs := (ih (n - 1) hn1).2.1 (v2 :: vs2) ind hszvs
          simp only [costItems, serItems, List.length_append, List.length_cons,
            List.length_replicate, pad] at hvs ⊢
          omega
    · intro l ind hl
      cases l with
      | nil => simp [costFields]
      | cons kv kvs =>
        obtain ⟨k, v⟩ := kv
        have hps := Prod.mk.sizeOf_spec k v
        have hcs := List.cons.sizeOf_spec (k, v) kvs
        have hszv : sizeOf v ≤ n - 1 := by omega
        have hszvs : sizeOf kvs ≤ n - 1 := by omega
        have hn1 : n - 1 < n := by omega
        have hv := (ih (n - 1) hn1).1 v ind hszv
        cases kvs with
        | nil =>
          simp only [costFields, serFields, List.length_append, List.length_cons]
          omega
        | cons kv2 kvs2 =>
          obtain ⟨k2, v2⟩ := kv2
          have hvs := (ih (n - 1) hn1).2.2 ((k2, v2) :: kvs2) ind hszvs
          simp only [costFields, serFields, List.length_append, List.length_cons,
            List.length_replicate, pad] at hvs ⊢
          omega

theorem costVal_le (ind : Nat) (v : Json) : costVal v ≤ (serVal ind v).length :=
  (cost_le_all (sizeOf v)).1 v ind le_rfl

/-! ## Round-trip: whitespace skipping around serialized fragments -/

theorem parseStrBody_len (l tail : List Char) :
    parseStrBody ((escList l ++ '"' :: tail).length + 1) (escList l ++ '"' :: tail) =
      some (l, tail) := by
  apply parseStrBody_escList
  have := escList_length_ge l
  simp only [List.length_append, List.length_cons]
  omega

theorem skipWs_serVal (ind : Nat) (v : Json) : skipWs (serVal ind v) = serVal ind v := by
  obtain ⟨c, t, hct, hv⟩ := serVal_head ind v
  rw [hct, skipWs_not_ws _ (valStart_not_ws hv).1]

theorem skipWs_serVal_append (ind : Nat) (v : Json) (y : List Char) :
    skipWs (serVal ind v ++ y) = serVal ind v ++ y := by
  obtain ⟨c, t, hct, hv⟩ := serVal_head ind v
  rw [hct, List.cons_append, skipWs_not_ws _ (valStart_not_ws hv).1]

theorem skipWs_serItems_append (ind : Nat) (l : List Json) (hl : l ≠ []) (y : List Char) :
    skipWs (serItems ind l ++ y) = serItems ind l ++ y := by
  obtain ⟨c, t, hct, hv⟩ := serItems_head ind l hl
  rw [hct, List.cons_append, skipWs_not_ws _ (valStart_not_ws hv).1]

theorem skipWs_serFields_append (ind : Nat) (l : List (String × Json)) (hl : l ≠ [])
    (y : List Char) : skipWs (serFields ind l ++ y) = serFields ind l ++ y := by
  obtain ⟨t, hct⟩ := serFields_head ind l hl
  rw [hct, List.cons_append, skipWs_not_ws _ (by decide)]

theorem append_head_ne {x : List Char} {c0 : Char} {t0 : List Char} (hct : x = c0 :: t0)
    {b : Char} (hb : c0 ≠ b) (y : List Char) : ¬((x ++ y).head? = some b) := by
  rw [hct]
  simp [hb]

theorem nlPad_ws (ind : Nat) : ∀ c ∈ '\n' :: pad ind, jsonWsB c = true := by
  intro c hc
  rcases List.mem_cons.mp hc with h | h
  · rw [h]; decide
  · exact pad_ws ind c h

theorem numStop_comma (X : List Char) : numStop (',' :: X) :=
  ⟨by decide, by decide, by decide, by decide⟩

/-- Joint fuel induction: given enough fuel, the parser inverts the
serializer on every value, element list, and member list. -/
theorem parse_ser_all : ∀ f : Nat,
    (∀ (v : Json) (ind : Nat) (rest : List Char), costVal v ≤ f → numStop rest →
      parseVal f (serVal ind v ++ rest) = some (v, rest)) ∧
    (∀ (l : List Json) (ind : Nat) (cl rest : List Char), costItems l ≤ f → l ≠ [] →
      (∀ c ∈ cl, jsonWsB c = true) →
      parseItems f (serItems ind l ++ (cl ++ ']' :: rest)) = some (l, rest)) ∧
    (∀ (l : List (String × Json)) (ind : Nat) (cl rest : List Char), costFields l ≤ f →
      l ≠ [] → (∀ c ∈ cl, jsonWsB c = true) →
      parseFields f (serFields ind l ++ (cl ++ '}' :: rest)) = some (l, rest)) := by
  intro f
  induction f with
  | zero =>
    refine ⟨?_, ?_, ?_⟩
    · intro v ind rest hc _
      exact absurd hc (by have := costVal_pos v; omega)
    · intro l ind cl rest hc hl _
      exact absurd hc (by have := costItems_pos l hl; omega)
    · intro l ind cl rest hc hl _
      exact absurd hc (by have := costFields_pos l hl; omega)
  | succ f ih =>
    obtain ⟨ihV, ihI, ihF⟩ := ih
    refine ⟨?_, ?_, ?_⟩
    · intro v ind rest hc hstop
      cases v with
      | null =>
        simp only [serVal, List.cons_append, List.nil_append]
        rw [parseVal_n, keyNull_eq]
      | bool b =>
        cases b with
        | true =>
          simp only [serVal, List.cons_append, List.nil_append]
          rw [parseVal_t, keyTrue_eq]
        | false =>
          simp only [serVal, List.cons_append, List.nil_append]
          rw [parseVal_f, keyFalse_eq]
      | num neg ip frac exp =>
        obtain ⟨c, t, hct, hc'⟩ := renderNum_head neg ip frac exp
        have hnum := parseNum_renderNum neg ip frac exp rest hstop
        have hne : ¬c = 'n' ∧ ¬c = 't' ∧ ¬c = 'f' ∧ ¬c = '"' ∧ ¬c = '[' ∧ ¬c = '{' := by
          rcases hc' with hc' | ⟨d, hc'⟩
          · rw [hc']
            exact ⟨by decide, by decide, by decide, by decide, by decide, by decide⟩
          · obtain ⟨_, _, h3, h4, h5, h6, h7, h8⟩ := digitCh_ne d
            rw [hc']
            exact ⟨h3, h4, h5, h6, h7, h8⟩
        simp only [serVal, hct, List.cons_append]
        rw [parseVal_other f _ hne.1 hne.2.1 hne.2.2.1 hne.2.2.2.1 hne.2.2.2.2.1
          hne.2.2.2.2.2]
        rw [← List.cons_append, ← hct]
        exact hnum
      | str s =>
        simp only [serVal, List.cons_append, List.append_assoc, List.nil_append]
        rw [parseVal_quote, parseStrBody_len]
        simp only [Option.map_some', string_mk_data]
      | arr l =>
        cases l with
        | nil =>
          simp only [serVal, List.cons_append, List.nil_append]
          rw [parseVal_lbrack, skipWs_not_ws _ (by decide)]
          simp
        | cons v vs =>
          obtain ⟨c0, t0, hct0, hv0⟩ := serItems_head (ind + 1) (v :: vs) (by simp)
          have hws := valStart_not_ws hv0
          simp only [serVal, List.cons_append, List.append_assoc, List.nil_append]
          rw [parseVal_lbrack, skipWs_ws_cons _ (by decide),
            skipWs_ws_append _ (pad_ws (ind + 1)),
            skipWs_serItems_append (ind + 1) (v :: vs) (by simp) _,
            if_neg (append_head_ne hct0 hws.2.1 _)]
          have hitems := ihI (v :: vs) (ind + 1) ('\n' :: pad ind) rest
            (by simp only [costVal] at hc; omega) (by simp) (nlPad_ws ind)
          simp only [List.cons_append] at hitems
          rw [hitems]
          simp only [Option.map_some']
      | obj l =>
        cases l with
        | nil =>
          simp only [serVal, List.cons_append, List.nil_append]
          rw [parseVal_lbrace, skipWs_not_ws _ (by decide)]
          simp
        | cons kv kvs =>
          obtain ⟨t0, hct0⟩ := serFields_head (ind + 1) (kv :: kvs) (by simp)
          simp only [serVal, List.cons_append, List.append_assoc, List.nil_append]
          rw [parseVal_lbrace, skipWs_ws_cons _ (by decide),
            skipWs_ws_append _ (pad_ws (ind + 1)),
            skipWs_serFields_append (ind + 1) (kv :: kvs) (by simp) _,
            if_neg (append_head_ne hct0 (by decide) _)]
          have hfields := ihF (kv :: kvs) (ind + 1) ('\n' :: pad ind) rest
            (by simp only [costVal] at hc; omega) (by simp) (nlPad_ws ind)
          simp only [List.cons_append] at hfields
          rw [hfields]
          simp only [Option.map_some']
    · intro l ind cl rest hc hl hcl
      cases l with
      | nil => exact absurd rfl hl
      | cons v vs =>
        simp only [parseItems]
        cases vs with
        | nil =>
          simp only [serItems]
          rw [ihV v ind (cl ++ ']' :: rest) (by simp only [costItems] at hc; omega)
            (numStop_close cl ']' rest hcl ⟨by decide, by decide, by decide, by decide⟩)]
          rw [itemsStep_some, skipWs_ws_append _ hcl, skipWs_not_ws _ (by decide),
            itemsSep_cons, if_pos rfl]
        | cons v2 vs2 =>
          simp only [serItems, List.append_assoc, List.cons_append]
          rw [ihV v ind
            (',' :: '\n' :: (pad ind ++ (serItems ind (v2 :: vs2) ++ (cl ++ ']' :: rest))))
            (by simp only [costItems] at hc; omega) (numStop_comma _)]
          rw [itemsStep_some, skipWs_not_ws _ (by decide), itemsSep_cons,
            if_neg (by decide), if_pos rfl, skipWs_ws_cons _ (by decide),
            skipWs_ws_append _ (pad_ws ind),
            skipWs_serItems_append ind (v2 :: vs2) (by simp) _]
          rw [ihI (v2 :: vs2) ind cl rest
            (by simp only [costItems] at hc ⊢; omega) (by simp) hcl]
          simp only [Option.map_some']
    · intro l ind cl rest hc hl hcl
      cases l with
      | nil => exact absurd rfl hl
      | cons kv kvs =>
        obtain ⟨k, vv⟩ := kv
        simp only [parseFields]
        cases kvs with
        | nil =>
          simp only [serFields, List.cons_append, List.append_assoc, List.nil_append]
          rw [fieldsKey_quote, parseStrBody_len, fieldsColon_some,
            skipWs_not_ws _ (by decide), fieldsColon2_colon, skipWs_ws_cons _ (by decide),
            skipWs_serVal_append ind vv _]
          rw [ihV vv ind (cl ++ '}' :: rest) (by simp only [costFields] at hc; omega)
            (numStop_close cl '}' rest hcl ⟨by decide, by decide, by decide, by decide⟩)]
          rw [fieldsVal_some, skipWs_ws_append _ hcl, skipWs_not_ws _ (by decide),
            fieldsSep_cons, if_pos rfl, string_mk_data]
        | cons kv2 kvs2 =>
          simp only [serFields, List.cons_append, List.append_assoc, List.nil_append]
          rw [fieldsKey_quote, parseStrBody_len, fieldsColon_some,
            skipWs_not_ws _ (by decide), fieldsColon2_colon, skipWs_ws_cons _ (by decide),
            skipWs_serVal_append ind vv _]
          rw [ihV vv ind
            (',' :: '\n' :: (pad ind ++ (serFields ind (kv2 :: kvs2) ++ (cl ++ '}' :: rest))))
            (by simp only [costFields] at hc; omega) (numStop_comma _)]
          rw [fieldsVal_some, skipWs_not_ws _ (by decide), fieldsSep_cons,
            if_neg (by decide), if_pos rfl, skipWs_ws_cons _ (by decide),
            skipWs_ws_append _ (pad_ws ind),
            skipWs_serFields_append ind (kv2 :: kvs2) (by simp) _]
          rw [ihF (kv2 :: kvs2) ind cl rest
            (by simp only [costFields] at hc ⊢; omega) (by simp) hcl]
          simp only [Option.map_some', string_mk_data]

theorem string_data_mk (l : List Char) : (String.mk l).data = l := rfl

/-- C8: round-trip — for every JSON value in the model (covering every
ParsedResume the export path can hold), serializing with
`json.dumps(..., indent=2)` and re-parsing with `json.loads` returns the
original value, field for field. -/
theorem dumps_loads_round_trip (v : Json) :
    json_loads (json_dumps_indent2 v) = some v := by
  unfold json_loads json_dumps_indent2
  simp only [string_data_mk]
  rw [skipWs_serVal 0 v]
  have h := (parse_ser_all ((serVal 0 v).length + 1)).1 v 0 []
    (le_trans (costVal_le 0 v) (Nat.le_succ _)) (show numStop [] from True.intro)
  rw [List.append_nil] at h
  rw [h]
  simp [skipWs]

/-! ## C4: what the parser consumes

`json.loads` succeeds only if the non-whitespace part of the input is a
single JSON value; the lemmas below recover, from a successful parse, the
consumed prefix together with its first and last characters.  The first
character of a value is a `valStart` character and the last one is a
closing quote/bracket/brace, a keyword letter, or a digit — in particular
never a backtick, which is what the fence-stripping argument needs. -/

/-- Characters that can end the consumed text of a JSON value. -/
def endCh (c : Char) : Bool :=
  c = '"' || c = ']' || c = '}' || c = 'l' || c = 'e' || (digitOf c).isSome

theorem last_cons {p : Char → Bool} {u : List Char} (c : Char)
    (h : ∃ e t, u.reverse = e :: t ∧ p e = true) :
    ∃ e t, (c :: u).reverse = e :: t ∧ p e = true := by
  obtain ⟨e, t, he, hp⟩ := h
  exact ⟨e, t ++ [c], by simp [he], hp⟩

theorem last_append {p : Char → Bool} {u2 : List Char} (u1 : List Char)
    (h : ∃ e t, u2.reverse = e :: t ∧ p e = true) :
    ∃ e t, (u1 ++ u2).reverse = e :: t ∧ p e = true := by
  obtain ⟨e, t, he, hp⟩ := h
  exact ⟨e, t ++ u1.reverse, by simp [he], hp⟩

theorem last_snoc {p : Char → Bool} (X : List Char) {e : Char} (hp : p e = true) :
    ∃ e' t, (X ++ [e]).reverse = e' :: t ∧ p e' = true :=
  ⟨e, X.reverse, by simp, hp⟩

theorem all_last {p : Char → Bool} {u : List Char} (hu : u ≠ [])
    (hall : ∀ c ∈ u, p c = true) :
    ∃ e t, u.reverse = e :: t ∧ p e = true := by
  cases hr : u.reverse with
  | nil => exact absurd (List.reverse_eq_nil_iff.mp hr) hu
  | cons e t =>
    refine ⟨e, t, rfl, hall e ?_⟩
    have he : e ∈ u.reverse := by rw [hr]; exact List.mem_cons_self e t
    simpa using he

theorem takeDigits_split : ∀ s : List Char, ∃ pre, s = pre ++ (takeDigits s).2 ∧
    (∀ c ∈ pre, (digitOf c).isSome = true) ∧ (pre = [] ↔ (takeDigits s).1 = []) := by
  intro s
  induction s with
  | nil => exact ⟨[], rfl, by simp, by simp [takeDigits]⟩
  | cons c cs ih =>
    obtain ⟨pre, hp, hall, hiff⟩ := ih
    cases hd : digitOf c with
    | some d =>
      refine ⟨c :: pre, ?_, ?_, ?_⟩
      · simp only [takeDigits, hd]
        rw [List.cons_append, ← hp]
      · intro x hx
        rcases List.mem_cons.mp hx with h | h
        · rw [h, hd]; rfl
        · exact hall x h
      · simp [takeDigits, hd]
    | none =>
      refine ⟨[], ?_, by simp, ?_⟩
      · simp [takeDigits, hd]
      · simp [takeDigits, hd]

theorem parseExpDigits_split {neg : Bool} {ip : Nat} {frac : List (Fin 10)} {eneg : Bool}
    {s : List Char} {v : Json} {r : List Char}
    (h : parseExpDigits neg ip frac eneg s = some (v, r)) :
    ∃ u, s = u ++ r ∧ ∃ e t, u.reverse = e :: t ∧ (digitOf e).isSome = true := by
  unfold parseExpDigits at h
  split at h
  · simp at h
  · rename_i hne
    simp only [Option.some.injEq, Prod.mk.injEq] at h
    obtain ⟨pre, hp, hall, hiff⟩ := takeDigits_split s
    refine ⟨pre, ?_, all_last (fun he => hne (hiff.mp he)) hall⟩
    rw [hp, h.2]

theorem parseExpTail_split {neg : Bool} {ip : Nat} {frac : List (Fin 10)}
    {s : List Char} {v : Json} {r : List Char}
    (h : parseExpTail neg ip frac s = some (v, r)) :
    ∃ u, s = u ++ r ∧ ∃ e t, u.reverse = e :: t ∧ (digitOf e).isSome = true := by
  cases s with
  | nil => simp [parseExpTail] at h
  | cons c cr =>
    simp only [parseExpTail] at h
    split at h
    · obtain ⟨u', hu', hl⟩ := parseExpDigits_split h
      exact ⟨c :: u', by simp [hu'], last_cons c hl⟩
    · split at h
      · obtain ⟨u', hu', hl⟩ := parseExpDigits_split h
        exact ⟨c :: u', by simp [hu'], last_cons c hl⟩
      · exact parseExpDigits_split h

theorem parseExp_split {neg : Bool} {ip : Nat} {frac : List (Fin 10)}
    {s : List Char} {v : Json} {r : List Char}
    (h : parseExp neg ip frac s = some (v, r)) :
    s = r ∨ ∃ u, s = u ++ r ∧ ∃ e t, u.reverse = e :: t ∧ (digitOf e).isSome = true := by
  cases s with
  | nil =>
    left
    simp only [parseExp, Option.some.injEq, Prod.mk.injEq] at h
    exact h.2
  | cons c cr =>
    simp only [parseExp] at h
    split at h
    · right
      obtain ⟨u', hu', hl⟩ := parseExpTail_split h
      exact ⟨c :: u', by simp [hu'], last_cons c hl⟩
    · left
      simp only [Option.some.injEq, Prod.mk.injEq] at h
      exact h.2

theorem parseFracExp_split {neg : Bool} {ip : Nat}
    {s : List Char} {v : Json} {r : List Char}
    (h : parseFracExp neg ip s = some (v, r)) :
    s = r ∨ ∃ u, s = u ++ r ∧ ∃ e t, u.reverse = e :: t ∧ (digitOf e).isSome = true := by
  cases s with
  | nil =>
    simp only [parseFracExp] at h
    rcases parseExp_split h with h' | ⟨u, hu, e, t, he, _⟩
    · exact Or.inl h'
    · exfalso
      have hu0 : u = [] := by
        have hlen := congrArg List.length hu
        simp only [List.length_nil, List.length_append] at hlen
        exact List.length_eq_zero.mp (by omega)
      rw [hu0] at he
      simp at he
  | cons c cr =>
    simp only [parseFracExp] at h
    split at h
    · split at h
      · simp at h
      · rename_i hdot hne
        obtain ⟨pre, hp, hall, hiff⟩ := takeDigits_split cr
        rcases parseExp_split h with h' | ⟨u2, hu2, hl2⟩
        · right
          refine ⟨c :: pre, ?_, ?_⟩
          · rw [show cr = pre ++ r from by rw [hp, h']]
            simp
          · exact last_cons c (all_last (fun h0 => hne (hiff.mp h0)) hall)
        · right
          refine ⟨c :: (pre ++ u2), ?_, ?_⟩
          · rw [show cr = (pre ++ u2) ++ r from by rw [hp, hu2]; simp]
            simp
          · exact last_cons c (last_append pre hl2)
    · rcases parseExp_split h with h' | ⟨u2, hu2, hl2⟩
      · exact Or.inl h'
      · exact Or.inr ⟨u2, hu2, hl2⟩

theorem parseNumBody_split {neg : Bool} {s : List Char} {v : Json} {r : List Char}
    (h : parseNumBody neg s = some (v, r)) :
    ∃ u, s = u ++ r ∧ ∃ e t, u.reverse = e :: t ∧ (digitOf e).isSome = true := by
  cases s with
  | nil => simp [parseNumBody] at h
  | cons c cr =>
    rw [parseNumBody_cons] at h
    cases hd : digitOf c with
    | none => rw [hd, numAfterSign_none] at h; simp at h
    | some d =>
      rw [hd, numAfterSign_some] at h
      have hcd : (digitOf c).isSome = true := by rw [hd]; rfl
      split at h
      · rcases parseFracExp_split h with h' | ⟨u2, hu2, hl2⟩
        · exact ⟨[c], by simp [h'], c, [], rfl, hcd⟩
        · exact ⟨c :: u2, by simp [hu2], last_cons c hl2⟩
      · obtain ⟨pre, hp, hall, hiff⟩ := takeDigits_split cr
        rcases parseFracExp_split h with h' | ⟨u2, hu2, hl2⟩
        · refine ⟨c :: pre, ?_, ?_⟩
          · rw [show cr = pre ++ r from by rw [hp, h']]
            simp
          · refine all_last (by simp) ?_
            intro x hx
            rcases List.mem_cons.mp hx with h0 | h0
            · rw [h0]; exact hcd
            · exact hall x h0
        · refine ⟨c :: (pre ++ u2), ?_, ?_⟩
          · rw [show cr = (pre ++ u2) ++ r from by rw [hp, hu2]; simp]
            simp
          · exact last_cons c (last_append pre hl2)

theorem parseNum_split {s : List Char} {v : Json} {r : List Char}
    (h : parseNum s = some (v, r)) :
    ∃ u, s = u ++ r ∧ ∃ e t, u.reverse = e :: t ∧ (digitOf e).isSome = true := by
  cases s with
  | nil => simp [parseNum] at h
  | cons c cr =>
    rw [parseNum_cons] at h
    split at h
    · obtain ⟨u2, hu2, hl2⟩ := parseNumBody_split h
      exact ⟨c :: u2, by simp [hu2], last_cons c hl2⟩
    · exact parseNumBody_split h

theorem pairStep_inv {rec : List Char → Option (List Char × List Char)} {n : Nat}
    {r4 : List Char} {p : List Char} {r : List Char}
    (h : pairStep rec n r4 = some (p, r)) :
    ∃ pref r' p', r4 = pref ++ r' ∧ rec r' = some (p', r) := by
  cases r4 with
  | nil => simp [pairStep] at h
  | cons b1 t1 =>
  cases t1 with
  | nil => simp [pairStep] at h
  | cons b2 t2 =>
  cases t2 with
  | nil => simp [pairStep] at h
  | cons k1 t3 =>
  cases t3 with
  | nil => simp [pairStep] at h
  | cons k2 t4 =>
  cases t4 with
  | nil => simp [pairStep] at h
  | cons k3 t5 =>
  cases t5 with
  | nil => simp [pairStep] at h
  | cons k4 r5 =>
  rw [pairStep_cons] at h
  split at h
  · cases hq : hexQuad k1 k2 k3 k4 with
    | none => rw [hq] at h; simp [pairStepVal] at h
    | some m =>
      rw [hq, pairStepVal_some] at h
      split at h
      · rcases Option.map_eq_some'.mp h with ⟨⟨p1, r1⟩, hx, hy⟩
        simp only [Prod.mk.injEq] at hy
        exact ⟨[b1, b2, k1, k2, k3, k4], r5, p1, by simp, hy.2 ▸ hx⟩
      · simp at h
  · simp at h

theorem uStep_inv {rec : List Char → Option (List Char × List Char)}
    {r3 : List Char} {p : List Char} {r : List Char}
    (h : uStep rec r3 = some (p, r)) :
    ∃ pref r' p', r3 = pref ++ r' ∧ rec r' = some (p', r) := by
  cases r3 with
  | nil => simp [uStep] at h
  | cons h1 t1 =>
  cases t1 with
  | nil => simp [uStep] at h
  | cons h2 t2 =>
  cases t2 with
  | nil => simp [uStep] at h
  | cons h3 t3 =>
  cases t3 with
  | nil => simp [uStep] at h
  | cons h4 r4 =>
  rw [uStep_cons] at h
  cases hq : hexQuad h1 h2 h3 h4 with
  | none => rw [hq] at h; simp [uStepVal] at h
  | some n =>
    rw [hq, uStepVal_some] at h
    split at h
    · obtain ⟨pref2, r', p', hr4, hrec⟩ := pairStep_inv h
      exact ⟨h1 :: h2 :: h3 :: h4 :: pref2, r', p', by simp [hr4], hrec⟩
    · split at h
      · simp at h
      · rcases Option.map_eq_some'.mp h with ⟨⟨p1, r1⟩, hx, hy⟩
        simp only [Prod.mk.injEq] at hy
        exact ⟨[h1, h2, h3, h4], r4, p1, by simp, hy.2 ▸ hx⟩

theorem escStep_inv {rec : List Char → Option (List Char × List Char)}
    {r2 : List Char} {p : List Char} {r : List Char}
    (h : escStep rec r2 = some (p, r)) :
    ∃ pref r' p', r2 = pref ++ r' ∧ rec r' = some (p', r) := by
  cases r2 with
  | nil => simp [escStep] at h
  | cons e r3 =>
    rw [escStep_cons] at h
    split at h
    · obtain ⟨pref2, r', p', hr3, hrec⟩ := uStep_inv h
      exact ⟨e :: pref2, r', p', by simp [hr3], hrec⟩
    · cases hm : escMap e with
      | none => rw [hm] at h; simp [escStepOther] at h
      | some c2 =>
        rw [hm, escStepOther_some] at h
        rcases Option.map_eq_some'.mp h with ⟨⟨p1, r1⟩, hx, hy⟩
        simp only [Prod.mk.injEq] at hy
        exact ⟨[e], r3, p1, by simp, hy.2 ▸ hx⟩

theorem parseStrBody_split : ∀ (f : Nat) (s p : List Char) (r : List Char),
    parseStrBody f s = some (p, r) →
    ∃ u, s = u ++ r ∧ ∃ e t, u.reverse = e :: t ∧ endCh e = true := by
  intro f
  induction f with
  | zero => intro s p r h; simp [parseStrBody] at h
  | succ f ih =>
    intro s p r h
    cases s with
    | nil => simp [parseStrBody] at h
    | cons c r0 =>
      by_cases h1 : c = '"'
      · subst h1
        rw [parseStrBody_quote] at h
        simp only [Option.some.injEq, Prod.mk.injEq] at h
        refine ⟨['"'], ?_, '"', [], rfl, by decide⟩
        rw [h.2]
        rfl
      · by_cases h2 : c = '\\'
        · subst h2
          rw [parseStrBody_esc] at h
          obtain ⟨pref, r', p', hr0, hrec⟩ := escStep_inv h
          obtain ⟨u', hu', hl⟩ := ih r' p' r hrec
          refine ⟨'\\' :: (pref ++ u'), ?_, ?_⟩
          · rw [hr0, hu']; simp
          · exact last_cons '\\' (last_append pref hl)
        · by_cases h3 : c.toNat < 32
          · exfalso
            rw [show parseStrBody (f + 1) (c :: r0) = none from by
              simp only [parseStrBody]
              rw [if_neg h1, if_neg h2, if_pos h3]] at h
            simp at h
          · rw [parseStrBody_plain f r0 h1 h2 h3] at h
            rcases Option.map_eq_some'.mp h with ⟨⟨p1, r1⟩, hx, hy⟩
            simp only [Prod.mk.injEq] at hy
            obtain ⟨u', hu', hl⟩ := ih r0 p1 r (hy.2 ▸ hx)
            exact ⟨c :: u', by simp [hu'], last_cons c hl⟩

theorem keyNull_inv {r : List Char} {v : Json} {r2 : List Char}
    (h : keyNull r = some (v, r2)) : r = 'u' :: 'l' :: 'l' :: r2 ∧ v = Json.null := by
  unfold keyNull at h
  split at h <;> simp_all

theorem keyTrue_inv {r : List Char} {v : Json} {r2 : List Char}
    (h : keyTrue r = some (v, r2)) : r = 'r' :: 'u' :: 'e' :: r2 ∧ v = Json.bool true := by
  unfold keyTrue at h
  split at h <;> simp_all

theorem keyFalse_inv {r : List Char} {v : Json} {r2 : List Char}
    (h : keyFalse r = some (v, r2)) :
    r = 'a' :: 'l' :: 's' :: 'e' :: r2 ∧ v = Json.bool false := by
  unfold keyFalse at h
  split at h <;> simp_all

theorem parseVal_head {f : Nat} {s : List Char} {v : Json} {r : List Char}
    (h : parseVal f s = some (v, r)) : ∃ c t, s = c :: t ∧ valStart c = true := by
  cases f with
  | zero => simp [parseVal] at h
  | succ f =>
    cases s with
    | nil => simp [parseVal] at h
    | cons c r0 =>
      refine ⟨c, r0, rfl, ?_⟩
      by_cases h1 : c = 'n'
      · simp [valStart, h1]
      · by_cases h2 : c = 't'
        · simp [valStart, h2]
        · by_cases h3 : c = 'f'
          · simp [valStart, h3]
          · by_cases h4 : c = '"'
            · simp [valStart, h4]
            · by_cases h5 : c = '['
              · simp [valStart, h5]
              · by_cases h6 : c = '{'
                · simp [valStart, h6]
                · rw [parseVal_other f _ h1 h2 h3 h4 h5 h6, parseNum_cons] at h
                  split at h
                  · rename_i h7
                    simp [valStart, h7]
                  · rw [parseNumBody_cons] at h
                    cases hd : digitOf c with
                    | none => rw [hd, numAfterSign_none] at h; simp at h
                    | some d => simp [valStart, hd]

theorem skipWs_split (s : List Char) :
    ∃ w, s = w ++ skipWs s ∧ ∀ c ∈ w, jsonWsB c = true :=
  ⟨s.takeWhile jsonWsB, (List.takeWhile_append_dropWhile jsonWsB s).symm,
    fun c hc => List.mem_takeWhile_imp hc⟩

theorem jsonWs_pyWs {c : Char} (h : jsonWsB c = true) : pyWs c = true := by
  have h' : ((c = ' ' ∨ c = '\t') ∨ c = '\n') ∨ c = '\r' := by simpa [jsonWsB] using h
  rcases h' with ((h | h) | h) | h <;> (rw [h]; rfl)

theorem endCh_facts {c : Char} (h : endCh c = true) : pyWs c = false ∧ c ≠ btCh := by
  have h' : ((((c = '"' ∨ c = ']') ∨ c = '}') ∨ c = 'l') ∨ c = 'e') ∨
      (digitOf c).isSome = true := by simpa [endCh] using h
  rcases h' with ((((h | h) | h) | h) | h) | h
  · rw [h]; exact ⟨rfl, by decide⟩
  · rw [h]; exact ⟨rfl, by decide⟩
  · rw [h]; exact ⟨rfl, by decide⟩
  · rw [h]; exact ⟨rfl, by decide⟩
  · rw [h]; exact ⟨rfl, by decide⟩
  · obtain ⟨h1, h2⟩ := digitOf_isSome_toNat h
    refine ⟨?_, ?_⟩
    · have hx : c.toNat ≠ 32 ∧ c.toNat ≠ 9 ∧ c.toNat ≠ 10 ∧ c.toNat ≠ 13 ∧
          c.toNat ≠ 11 ∧ c.toNat ≠ 12 := by omega
      obtain ⟨x1, x2, x3, x4, x5, x6⟩ := hx
      simp only [pyWs, Bool.or_eq_false_iff, decide_eq_false_iff_not]
      refine ⟨⟨⟨⟨⟨?_, ?_⟩, ?_⟩, ?_⟩, ?_⟩, ?_⟩ <;>
        (intro hc; rw [hc] at x1 x2 x3 x4 x5 x6 <;> simp_all)
    · intro hc
      rw [hc] at h1 h2
      have he : btCh.toNat = 96 := rfl
      omega

theorem valStart_facts {c : Char} (h : valStart c = true) : pyWs c = false ∧ c ≠ btCh := by
  have h' : ((((((c = 'n' ∨ c = 't') ∨ c = 'f') ∨ c = '"') ∨ c = '[') ∨ c = '{') ∨
      c = '-') ∨ (digitOf c).isSome = true := by
    simpa [valStart] using h
  rcases h' with ((((((h | h) | h) | h) | h) | h) | h) | h
  · rw [h]; exact ⟨rfl, by decide⟩
  · rw [h]; exact ⟨rfl, by decide⟩
  · rw [h]; exact ⟨rfl, by decide⟩
  · rw [h]; exact ⟨rfl, by decide⟩
  · rw [h]; exact ⟨rfl, by decide⟩
  · rw [h]; exact ⟨rfl, by decide⟩
  · rw [h]; exact ⟨rfl, by decide⟩
  · obtain ⟨h1, h2⟩ := digitOf_isSome_toNat h
    refine ⟨?_, ?_⟩
    · have hx : c.toNat ≠ 32 ∧ c.toNat ≠ 9 ∧ c.toNat ≠ 10 ∧ c.toNat ≠ 13 ∧
          c.toNat ≠ 11 ∧ c.toNat ≠ 12 := by omega
      obtain ⟨x1, x2, x3, x4, x5, x6⟩ := hx
      simp only [pyWs, Bool.or_eq_false_iff, decide_eq_false_iff_not]
      refine ⟨⟨⟨⟨⟨?_, ?_⟩, ?_⟩, ?_⟩, ?_⟩, ?_⟩ <;>
        (intro hc; rw [hc] at x1 x2 x3 x4 x5 x6 <;> simp_all)
    · intro hc
      rw [hc] at h1 h2
      have he : btCh.toNat = 96 := rfl
      omega

/-- Joint fuel induction: a successful parse consumes a prefix whose last
character is a quote, closing bracket/brace, keyword letter, or digit. -/
theorem parse_consumed_all : ∀ f : Nat,
    (∀ s (v : Json) (r : List Char), parseVal f s = some (v, r) → ∃ u, s = u ++ r ∧
      ∃ e t, u.reverse = e :: t ∧ endCh e = true) ∧
    (∀ s (l : List Json) (r : List Char), parseItems f s = some (l, r) → ∃ u, s = u ++ r ∧
      ∃ e t, u.reverse = e :: t ∧ endCh e = true) ∧
    (∀ s (l : List (String × Json)) (r : List Char), parseFields f s = some (l, r) →
      ∃ u, s = u ++ r ∧ ∃ e t, u.reverse = e :: t ∧ endCh e = true) := by
  intro f
  induction f with
  | zero =>
    refine ⟨?_, ?_, ?_⟩ <;> (intro s x r h; simp [parseVal, parseItems, parseFields] at h)
  | succ f ih =>
    obtain ⟨ihV, ihI, ihF⟩ := ih
    refine ⟨?_, ?_, ?_⟩
    · intro s v r h
      cases s with
      | nil => simp [parseVal] at h
      | cons c r0 =>
        by_cases h1 : c = 'n'
        · subst h1
          rw [parseVal_n] at h
          obtain ⟨hr, hv⟩ := keyNull_inv h
          exact ⟨['n', 'u', 'l', 'l'], by simp [hr], 'l', ['l', 'u', 'n'], rfl, by decide⟩
        · by_cases h2 : c = 't'
          · subst h2
            rw [parseVal_t] at h
            obtain ⟨hr, hv⟩ := keyTrue_inv h
            exact ⟨['t', 'r', 'u', 'e'], by simp [hr], 'e', ['u', 'r', 't'], rfl, by decide⟩
          · by_cases h3 : c = 'f'
            · subst h3
              rw [parseVal_f] at h
              obtain ⟨hr, hv⟩ := keyFalse_inv h
              exact ⟨['f', 'a', 'l', 's', 'e'], by simp [hr], 'e', ['s', 'l', 'a', 'f'],
                rfl, by decide⟩
            · by_cases h4 : c = '"'
              · subst h4
                rw [parseVal_quote] at h
                rcases Option.map_eq_some'.mp h with ⟨⟨p1, r1⟩, hx, hy⟩
                simp only [Prod.mk.injEq] at hy
                obtain ⟨u1, hu1, hl1⟩ := parseStrBody_split _ r0 p1 r (hy.2 ▸ hx)
                exact ⟨'"' :: u1, by simp [hu1], last_cons '"' hl1⟩
              · by_cases h5 : c = '['
                · subst h5
                  rw [parseVal_lbrack] at h
                  obtain ⟨w, hw, hws⟩ := skipWs_split r0
                  split at h
                  · rename_i hhead
                    simp only [Option.some.injEq, Prod.mk.injEq] at h
                    cases hsk : skipWs r0 with
                    | nil => rw [hsk] at hhead; simp at hhead
                    | cons a r2 =>
                      have ha : a = ']' := by rw [hsk] at hhead; simpa using hhead
                      have h2' := h.2
                      rw [hsk] at h2'
                      simp only [List.tail_cons] at h2'
                      refine ⟨('[' :: w) ++ [']'], ?_, last_snoc _ (by decide)⟩
                      rw [hw, hsk, ha, ← h2']
                      simp
                  · rcases Option.map_eq_some'.mp h with ⟨⟨l1, r1⟩, hx, hy⟩
                    simp only [Prod.mk.injEq] at hy
                    obtain ⟨u2, hu2, hl2⟩ := ihI (skipWs r0) l1 r (hy.2 ▸ hx)
                    refine ⟨'[' :: (w ++ u2), ?_, last_cons '[' (last_append w hl2)⟩
                    rw [hw, hu2]
                    simp
                · by_cases h6 : c = '{'
                  · subst h6
                    rw [parseVal_lbrace] at h
                    obtain ⟨w, hw, hws⟩ := skipWs_split r0
                    split at h
                    · rename_i hhead
                      simp only [Option.some.injEq, Prod.mk.injEq] at h
                      cases hsk : skipWs r0 with
                      | nil => rw [hsk] at hhead; simp at hhead
                      | cons a r2 =>
                        have ha : a = '}' := by rw [hsk] at hhead; simpa using hhead
                        have h2' := h.2
                        rw [hsk] at h2'
                        simp only [List.tail_cons] at h2'
                        refine ⟨('{' :: w) ++ ['}'], ?_, last_snoc _ (by decide)⟩
                        rw [hw, hsk, ha, ← h2']
                        simp
                    · rcases Option.map_eq_some'.mp h with ⟨⟨l1, r1⟩, hx, hy⟩
                      simp only [Prod.mk.injEq] at hy
                      obtain ⟨u2, hu2, hl2⟩ := ihF (skipWs r0) l1 r (hy.2 ▸ hx)
                      refine ⟨'{' :: (w ++ u2), ?_, last_cons '{' (last_append w hl2)⟩
                      rw [hw, hu2]
                      simp
                  · rw [parseVal_other f _ h1 h2 h3 h4 h5 h6] at h
                    obtain ⟨u2, hu2, e, t, he, hd⟩ := parseNum_split h
                    exact ⟨u2, hu2, e, t, he, by simp [endCh, hd]⟩
    · intro s l r h
      simp only [parseItems] at h
      cases hv : parseVal f s with
      | none => rw [hv] at h; simp [itemsStep] at h
      | some vr =>
        obtain ⟨v1, r1⟩ := vr
        rw [hv, itemsStep_some] at h
        obtain ⟨u1, hu1, hl1⟩ := ihV s v1 r1 hv
        obtain ⟨w, hw, hws⟩ := skipWs_split r1
        cases hsk : skipWs r1 with
        | nil => rw [hsk] at h; simp [itemsSep] at h
        | cons a r2 =>
          rw [hsk, itemsSep_cons] at h
          split at h
          · rename_i ha
            simp only [Option.some.injEq, Prod.mk.injEq] at h
            refine ⟨(u1 ++ w) ++ [']'], ?_, last_snoc _ (by decide)⟩
            rw [hu1, hw, hsk, ha, ← h.2]
            simp
          · split at h
            · rename_i ha hc
              rcases Option.map_eq_some'.mp h with ⟨⟨l2, r3⟩, hx, hy⟩
              simp only [Prod.mk.injEq] at hy
              obtain ⟨u2, hu2, hl2⟩ := ihI (skipWs r2) l2 r (hy.2 ▸ hx)
              obtain ⟨w2, hw2, hws2⟩ := skipWs_split r2
              refine ⟨(u1 ++ (w ++ (',' :: w2))) ++ u2, ?_, last_append _ hl2⟩
              rw [hu1, hw, hsk, hc, hw2, hu2]
              simp
            · simp at h
    · intro s l r h
      simp only [parseFields] at h
      unfold fieldsKey at h
      split at h
      · rename_i r0
        cases hsb : parseStrBody (r0.length + 1) r0 with
        | none => rw [hsb] at h; simp [fieldsColon] at h
        | some kr =>
          obtain ⟨k1, r1⟩ := kr
          rw [hsb, fieldsColon_some] at h
          obtain ⟨u1, hu1, hl1⟩ := parseStrBody_split _ r0 k1 r1 hsb
          obtain ⟨w, hw, hws⟩ := skipWs_split r1
          cases hsk : skipWs r1 with
          | nil => rw [hsk] at h; simp [fieldsColon2] at h
          | cons a r2 =>
            rw [hsk] at h
            unfold fieldsColon2 at h
            split at h
            · rename_i r2' heq
              injection heq with ha hr2
              subst ha
              subst hr2
              cases hvv : parseVal f (skipWs r2) with
              | none => rw [hvv] at h; simp [fieldsVal] at h
              | some vr =>
                obtain ⟨v1, r3⟩ := vr
                rw [hvv, fieldsVal_some] at h
                obtain ⟨u2, hu2, hl2⟩ := ihV _ v1 r3 hvv
                obtain ⟨w2, hw2, hws2⟩ := skipWs_split r2
                obtain ⟨w3, hw3, hws3⟩ := skipWs_split r3
                cases hsk3 : skipWs r3 with
                | nil => rw [hsk3] at h; simp [fieldsSep] at h
                | cons b r4 =>
                  rw [hsk3, fieldsSep_cons] at h
                  split at h
                  · rename_i hb
                    simp only [Option.some.injEq, Prod.mk.injEq] at h
                    refine ⟨('"' :: (u1 ++ (w ++ (':' :: (w2 ++ (u2 ++ w3)))))) ++ ['}'],
                      ?_, last_snoc _ (by decide)⟩
                    rw [hu1, hw, hsk, hw2, hu2, hw3, hsk3, hb, ← h.2]
                    simp
                  · split at h
                    · rename_i hb hcm
                      rcases Option.map_eq_some'.mp h with ⟨⟨l2, r5⟩, hx, hy⟩
                      simp only [Prod.mk.injEq] at hy
                      obtain ⟨u3, hu3, hl3⟩ := ihF (skipWs r4) l2 r (hy.2 ▸ hx)
                      obtain ⟨w4, hw4, hws4⟩ := skipWs_split r4
                      refine ⟨('"' :: (u1 ++ (w ++ (':' ::
                        (w2 ++ (u2 ++ (w3 ++ (',' :: w4)))))))) ++ u3, ?_,
                        last_append _ hl3⟩
                      rw [hu1, hw, hsk, hw2, hu2, hw3, hsk3, hcm, hw4, hu3]
                      simp
                    · simp at h
            · simp at h
      · simp at h

/-! ## C4: `str.strip` around a solid core -/

theorem dropWhile_all_append {p : Char → Bool} {a : List Char} (b : List Char)
    (ha : ∀ c ∈ a, p c = true) : (a ++ b).dropWhile p = b.dropWhile p := by
  induction a with
  | nil => rfl
  | cons x xs ih =>
    rw [List.cons_append, List.dropWhile_cons, if_pos (ha x (by simp))]
    exact ih (fun c hc => ha c (by simp [hc]))

theorem pyStripL_wrap (w0 u r : List Char) (hw : ∀ c ∈ w0, pyWs c = true)
    (hr : ∀ c ∈ r, pyWs c = true) (hu1 : ∃ c t, u = c :: t ∧ pyWs c = false)
    (hu2 : ∃ e t, u.reverse = e :: t ∧ pyWs e = false) :
    pyStripL (w0 ++ (u ++ r)) = u := by
  obtain ⟨c, t, hct, hc⟩ := hu1
  obtain ⟨e, t2, het, he⟩ := hu2
  unfold pyStripL
  rw [dropWhile_all_append _ hw, hct, List.cons_append, List.dropWhile_cons,
    if_neg (by simp [hc]), ← List.cons_append, ← hct, List.reverse_append,
    dropWhile_all_append _ (fun x hx => hr x (by simpa using hx)), het,
    List.dropWhile_cons, if_neg (by simp [he]), ← het, List.reverse_reverse]

theorem pyStripL_ws_cons (c : Char) (l : List Char) (hc : pyWs c = true) :
    pyStripL (c :: l) = pyStripL l := by
  unfold pyStripL
  rw [List.dropWhile_cons, if_pos hc]

theorem pyStripL_ws_last (c : Char) (l : List Char) (hc : pyWs c = true) :
    pyStripL (l ++ [c]) = pyStripL l := by
  unfold pyStripL
  rw [List.dropWhile_append]
  by_cases hEmp : (l.dropWhile pyWs).isEmpty
  · rw [if_pos hEmp]
    have h0 : l.dropWhile pyWs = [] := by simpa using hEmp
    rw [h0]
    simp [List.dropWhile_cons, hc]
  · rw [if_neg hEmp,
      show (l.dropWhile pyWs ++ [c]).reverse = c :: (l.dropWhile pyWs).reverse by simp,
      List.dropWhile_cons, if_pos hc]

theorem rev_head_of_last {l : List Char} {e : Char} (X : List Char) (h : l = X ++ [e]) :
    ∃ t, l.reverse = e :: t := ⟨X.reverse, by rw [h]; simp⟩

theorem isPre_append_self (l x : List Char) : isPre l (l ++ x) = true := by
  induction l with
  | nil => rfl
  | cons a as ih => simp [isPre, ih]

theorem isPre_ne_head {a c : Char} (as t : List Char) (h : c ≠ a) :
    isPre (a :: as) (c :: t) = false := by
  have hab : (a == c) = false := beq_eq_false_iff_ne.mpr (fun hh => h hh.symm)
  simp [isPre, hab]

theorem json_loads_inv {s : String} {v : Json} (h : json_loads s = some v) :
    ∃ r, parseVal (s.data.length + 1) (skipWs s.data) = some (v, r) ∧ skipWs r = [] := by
  unfold json_loads at h
  cases hp : parseVal (s.data.length + 1) (skipWs s.data) with
  | none => rw [hp] at h; simp at h
  | some vr =>
    obtain ⟨v1, r⟩ := vr
    rw [hp] at h
    split at h
    · rename_i v2 r2 hre
      injection hre with hpair
      injection hpair with hv12 hr12
      subst hv12
      subst hr12
      split at h
      · rename_i hws0
        injection h with hv
        subst hv
        exact ⟨r, rfl, hws0⟩
      · simp at h
    · simp_all

theorem cleanResponseL_fenced (d : List Char) :
    cleanResponseL ("```json\n".data ++ (d ++ "\n```".data)) = pyStripL d := by
  have hL2 : ("```json\n".data : List Char) ++ (d ++ "\n```".data) =
      ("```json\n".data ++ (d ++ "\n``".data)) ++ [btCh] := by
    rw [show ("\n```".data : List Char) = "\n``".data ++ [btCh] from rfl]
    simp
  have hstrip1 : pyStripL ("```json\n".data ++ (d ++ "\n```".data)) =
      "```json\n".data ++ (d ++ "\n```".data) := by
    have hu1 : ∃ c t, ("```json\n".data : List Char) ++ (d ++ "\n```".data) = c :: t ∧
        pyWs c = false :=
      ⟨btCh, "``json\n".data ++ (d ++ "\n```".data), rfl, by decide⟩
    have hu2 : ∃ e t, (("```json\n".data : List Char) ++ (d ++ "\n```".data)).reverse =
        e :: t ∧ pyWs e = false := by
      obtain ⟨t, ht⟩ := rev_head_of_last _ hL2
      exact ⟨btCh, t, ht, by decide⟩
    have hthis := pyStripL_wrap [] ("```json\n".data ++ (d ++ "\n```".data)) []
      (by simp) (by simp) hu1 hu2
    simpa using hthis
  have hpre : isPre ("```json".data) ("```json\n".data ++ (d ++ "\n```".data)) = true := by
    rw [show ("```json\n".data : List Char) ++ (d ++ "\n```".data) =
      "```json".data ++ ('\n' :: (d ++ "\n```".data)) from rfl]
    exact isPre_append_self _ _
  have hdrop : (("```json\n".data : List Char) ++ (d ++ "\n```".data)).drop 7 =
      '\n' :: (d ++ "\n```".data) := by
    rw [show ("```json\n".data : List Char) ++ (d ++ "\n```".data) =
      "```json".data ++ ('\n' :: (d ++ "\n```".data)) from rfl]
    rw [show (7 : Nat) = ("```json".data : List Char).length from rfl]
    exact List.drop_left _ _
  have hshape : ('\n' :: (d ++ "\n```".data)) =
      ('\n' :: (d ++ ['\n'])) ++ "```".data := by
    rw [show ("\n```".data : List Char) = '\n' :: "```".data from rfl]
    simp
  have hsuf : isPre ("```".data.reverse) (('\n' :: (d ++ "\n```".data)).reverse) = true := by
    rw [hshape, List.reverse_append]
    exact isPre_append_self _ _
  have htake : ('\n' :: (d ++ "\n```".data)).take
      (('\n' :: (d ++ "\n```".data)).length - 3) = '\n' :: (d ++ ['\n']) := by
    rw [hshape]
    rw [show (('\n' :: (d ++ ['\n'])) ++ "```".data).length - 3 =
        ('\n' :: (d ++ ['\n'])).length from by
      have h3 : ("```".data : List Char).length = 3 := rfl
      simp [List.length_append, h3]]
    exact List.take_left _ _
  simp only [cleanResponseL]
  rw [hstrip1, if_pos hpre, hdrop, if_pos hsuf, htake,
    pyStripL_ws_cons '\n' _ (by decide), pyStripL_ws_last '\n' _ (by decide)]

theorem string_data_append (a b : String) : (a ++ b).data = a.data ++ b.data := rfl

theorem cleanResponseL_loads {d : List Char} {v : Json}
    (h : json_loads (String.mk d) = some v) : cleanResponseL d = pyStripL d := by
  obtain ⟨r, hp, hre⟩ := json_loads_inv h
  rw [string_mk_data] at hp
  obtain ⟨u, hu, e, t, he, hend⟩ := (parse_consumed_all (d.length + 1)).1 _ v r hp
  obtain ⟨c0, t0, hct0, hv0⟩ := parseVal_head hp
  obtain ⟨w, hw, hws⟩ := skipWs_split d
  have hre' : r.dropWhile jsonWsB = [] := hre
  have hrws : ∀ c ∈ r, pyWs c = true := fun c hc =>
    jsonWs_pyWs (List.dropWhile_eq_nil_iff.mp hre' c hc)
  have hd : d = w ++ (u ++ r) := by rw [hw, hu]
  have hu_head : ∃ t1, u = c0 :: t1 := by
    cases hu0 : u with
    | nil => rw [hu0] at he; simp at he
    | cons c1 t1 =>
      rw [hu0] at hu
      rw [hu] at hct0
      simp only [List.cons_append] at hct0
      injection hct0 with hh hrest
      exact ⟨t1, by rw [hh]⟩
  obtain ⟨t1, hct1⟩ := hu_head
  have hu1 : ∃ c t', u = c :: t' ∧ pyWs c = false := ⟨c0, t1, hct1, (valStart_facts hv0).1⟩
  have hu2 : ∃ e' t', u.reverse = e' :: t' ∧ pyWs e' = false :=
    ⟨e, t, he, (endCh_facts hend).1⟩
  have hstrip : pyStripL d = u := by
    rw [hd]
    exact pyStripL_wrap w u r (fun c hc => jsonWs_pyWs (hws c hc)) hrws hu1 hu2
  have hpre : isPre ("```json".data) u = false := by
    rw [hct1, show ("```json".data : List Char) = btCh :: "``json".data from rfl]
    exact isPre_ne_head _ _ (valStart_facts hv0).2
  have hsuf : isPre ("```".data.reverse) u.reverse = false := by
    rw [he, show (("```".data : List Char).reverse) = btCh :: "``".data from rfl]
    exact isPre_ne_head _ _ (endCh_facts hend).2
  have hself : pyStripL u = u := by
    have h2 := pyStripL_wrap [] u [] (by simp) (by simp) hu1 hu2
    simpa using h2
  have hnpre : ¬(isPre ("```json".data) u = true) := by
    simp only [hpre]
    simp
  have hnsuf : ¬(isPre ("```".data.reverse) u.reverse = true) := by
    simp only [hsuf]
    simp
  unfold cleanResponseL
  simp only []
  rw [hstrip, if_neg hnpre, if_neg hnsuf, hself]

/-- C4: the normalizer is invariant under code-fence wrapping — for every
response body `j` that is valid JSON, normalizing the fenced text
`"```json\n" ++ j ++ "\n```"` gives exactly the same result as normalizing
`j` alone (both clean to the stripped body, which the backtick-free shape of
valid JSON guarantees is untouched by the fence-stripping branches). -/
theorem normalize_fence_invariant (j : String) (h : (json_loads j).isSome = true) :
    normalizeResponse ("```json\n" ++ j ++ "\n```") = normalizeResponse j := by
  obtain ⟨v, hv⟩ := Option.isSome_iff_exists.mp h
  have hdata : ("```json\n" ++ j ++ "\n```").data =
      "```json\n".data ++ (j.data ++ "\n```".data) := by
    simp [string_data_append]
  have hA : cleanResponse ("```json\n" ++ j ++ "\n```") = String.mk (pyStripL j.data) := by
    unfold cleanResponse
    rw [hdata, cleanResponseL_fenced]
  have hB : cleanResponse j = String.mk (pyStripL j.data) := by
    unfold cleanResponse
    rw [cleanResponseL_loads (show json_loads (String.mk j.data) = some v from by
      rw [string_mk_data]; exact hv)]
  unfold normalizeResponse
  rw [hA, hB]

/-- Witness for `normalize_fence_invariant`: the spec's scenario input — the
body `{"summary": "x"}` is valid JSON, the fenced and bare responses
normalize identically, and the common result is the success object with the
single key `summary`. -/
theorem normalize_fence_invariant_witness :
    (json_loads "\x7b\"summary\": \"x\"\x7d").isSome = true ∧
    normalizeResponse ("```json\n" ++ "\x7b\"summary\": \"x\"\x7d" ++ "\n```") =
      normalizeResponse "\x7b\"summary\": \"x\"\x7d" ∧
    normalizeResponse "\x7b\"summary\": \"x\"\x7d" =
      Json.obj [("summary", Json.str "x")] :=
  ⟨rfl, normalize_fence_invariant "\x7b\"summary\": \"x\"\x7d" rfl, rfl⟩
